import Mathlib

/-!
# Verification of the QiAIchemy retrieval and fusion engine

Shallow embedding of the RAG retrieval core of the QiAIchemy backend:

* `src/services/rag/textUtils.ts` — text normalization, tokenization,
  chunking, similarity measures;
* `src/services/rag/graphLite.ts` — the graph relevance engine
  (seeding, personalized PageRank, query-complexity estimation,
  confidence);
* `src/services/rag/ingestKnowledge.ts` — the candidate scorer and
  reciprocal-rank-fusion ranking (`retrieveRelevantChunks`).

Modelling conventions:

* JS strings are modelled as `List Char` (code points; all inputs used
  here are BMP characters, where JS UTF-16 indices and code-point
  indices agree).
* JS numbers are modelled by `ℚ` (exact arithmetic).  `Math.sqrt` has
  no exact rational counterpart, so the few score formulas that divide
  by a square root are parameterized by an abstract square-root oracle
  `sqrtQ : ℚ → ℚ`; none of the verified properties depend on its
  values.  `Number.toFixed(6)` is modelled by exact decimal rounding.
* JS `Map`s are modelled either as association lists (when entry order
  or size is observable) or as total functions defaulting to the
  JS `get(k) ?? d` fallback value.
* `async` collaborator calls (the passage store, the embedding
  provider, the graph file) are modelled as explicit inputs: the
  retrieval function receives the value (or failure) each collaborator
  would have produced, making all effects visible in the type.
* JS `Array.prototype.sort` (guaranteed stable since ES2019) with a
  numeric comparator `(a, b) => key(b) - key(a)` is modelled as the
  unique stable descending sort: sorting index-tagged entries by the
  lexicographic order (key descending, original index ascending).
-/

/- The Batteries rational-number operations are `@[irreducible]`,
which stops `decide` from evaluating concrete score computations;
reopening them restores kernel computation on `ℚ`. -/
unseal Rat.mul Rat.inv Rat.add Rat.sub Rat.ofScientific

set_option maxRecDepth 100000

namespace QiRag

/-- JS strings, modelled as lists of characters. -/
abbrev Str := List Char

/-- `Math.min` on exact rationals (kernel-reducible, unlike the
lattice `⊓`). -/
def qmin (a b : ℚ) : ℚ := if a ≤ b then a else b

/-- `Math.max` on exact rationals. -/
def qmax (a b : ℚ) : ℚ := if a ≤ b then b else a

/-! ## Text utilities (`textUtils.ts`) -/

/-- Whitespace characters removed by JS `String.prototype.trim`
(the code points relevant to this corpus). -/
def wsChar (c : Char) : Bool :=
  c = ' ' ∨ c = '\t' ∨ c = '\n' ∨ c = '\r' ∨ c = '\x0b' ∨ c = '\x0c' ∨
    c = '　' ∨ c = ' ' ∨ c = '﻿'

/-- JS `s.trim()`: drop leading and trailing whitespace. -/
def trimStr (s : Str) : Str :=
  ((s.dropWhile wsChar).reverse.dropWhile wsChar).reverse

/-- `normalizeText` step 1: `.replace(/\r\n/g, '\n')`. -/
def collapseCrlf : Str → Str
  | [] => []
  | '\r' :: '\n' :: rest => '\n' :: collapseCrlf rest
  | c :: rest => c :: collapseCrlf rest

/-- `normalizeText` step 3: `.replace(/[ \t]+/g, ' ')`; the `Bool`
flag records whether we are inside a run of blanks already replaced. -/
def collapseBlanks : Bool → Str → Str
  | _, [] => []
  | inRun, c :: rest =>
    if c = ' ' ∨ c = '\t' then
      if inRun then collapseBlanks true rest
      else ' ' :: collapseBlanks true rest
    else c :: collapseBlanks false rest

/-- `normalizeText` step 4: `.replace(/\n{3,}/g, '\n\n')`; the counter
is the number of newlines already emitted in the current run. -/
def collapseNewlines : Nat → Str → Str
  | _, [] => []
  | k, c :: rest =>
    if c = '\n' then
      if k < 2 then '\n' :: collapseNewlines (k + 1) rest
      else collapseNewlines k rest
    else c :: collapseNewlines 0 rest

/-- `normalizeText(input)` from `textUtils.ts`: collapse CRLF, map the
full-width space to a plain space, collapse horizontal blank runs,
collapse 3+ newlines to two, and trim. -/
def normalizeText (input : Str) : Str :=
  trimStr (collapseNewlines 0 (collapseBlanks false
    ((collapseCrlf input).map (fun c => if c = '　' then ' ' else c))))

/-- Lower-case alphanumeric character (`[a-z0-9]` after
`toLowerCase`). -/
def isAlnumLower (c : Char) : Bool :=
  ('a' ≤ c ∧ c ≤ 'z') ∨ ('0' ≤ c ∧ c ≤ '9')

/-- Han-script character test (`/\p{Script=Han}/u`), modelled by the
Unicode Han blocks that the corpus and the graph can contain. -/
def isHanChar (c : Char) : Bool :=
  (0x4E00 ≤ c.val ∧ c.val ≤ 0x9FFF) ∨
  (0x3400 ≤ c.val ∧ c.val ≤ 0x4DBF) ∨
  (0xF900 ≤ c.val ∧ c.val ≤ 0xFAFF) ∨
  (0x20000 ≤ c.val ∧ c.val ≤ 0x2EBEF) ∨
  c.val = 0x3005 ∨ c.val = 0x3007

/-- Maximal runs of `[a-z0-9]` characters (the matches of the global
regex `/[a-z0-9]{2,}/g` before the length bound); `cur` is the current
run accumulated in reverse. -/
def alnumRunsAux : Str → Str → List Str
  | cur, [] => if cur = [] then [] else [cur.reverse]
  | cur, c :: rest =>
    if isAlnumLower c then alnumRunsAux (c :: cur) rest
    else if cur = [] then alnumRunsAux [] rest
    else cur.reverse :: alnumRunsAux [] rest

/-- Maximal alphanumeric runs of a (lower-cased) string. -/
def alnumRuns (s : Str) : List Str := alnumRunsAux [] s

/-- `tokenizeForSearch(input)` from `textUtils.ts`: normalize and
lower-case, collect alphanumeric runs of length ≥ 2 and all adjacent
Han-character bigrams, and de-duplicate keeping first-seen order. -/
def tokenizeForSearch (input : Str) : List Str :=
  let normalized := (normalizeText input).map Char.toLower
  let englishTokens := (alnumRuns normalized).filter (fun t => 2 ≤ t.length)
  let hanChars := normalized.filter isHanChar
  let chineseBigrams := (hanChars.zip hanChars.tail).map (fun p => [p.1, p.2])
  (englishTokens ++ chineseBigrams).foldl
    (fun acc t => if 2 ≤ t.length ∧ ¬ acc.contains t then acc ++ [t] else acc) []

/-- The chunking loop of `splitIntoChunks`: slices of length `size`
taken every `step` characters, the last slice being whatever remains
once fewer than `size` characters are left.  The loop consumes at
least one character per round, so `s.length` is sufficient fuel. -/
def chunkWindowsAux : Nat → Str → Nat → Nat → List Str
  | 0, s, _, _ => [s]
  | fuel + 1, s, size, step =>
    if s.length ≤ size then [s]
    else s.take size :: chunkWindowsAux fuel (s.drop step) size step

/-- The untrimmed window slices produced by the `splitIntoChunks` loop,
with the source's step `max(chunkSize - overlap, 1)`. -/
def chunkWindows (s : Str) (chunkSize overlap : Nat) : List Str :=
  chunkWindowsAux s.length s chunkSize (max (chunkSize - overlap) 1)

/-- `splitIntoChunks(text, chunkSize, overlap)` from `textUtils.ts`:
normalize; empty → no chunks; short → one chunk; otherwise each window
slice is trimmed and kept when non-empty. -/
def splitIntoChunks (text : Str) (chunkSize overlap : Nat) : List Str :=
  let normalized := normalizeText text
  if normalized = [] then []
  else if normalized.length ≤ chunkSize then [normalized]
  else (chunkWindows normalized chunkSize overlap).filterMap
    (fun w => let c := trimStr w; if c = [] then none else some c)

/-- `cosineSimilarity(vectorA, vectorB)` from `textUtils.ts`, with the
square root supplied by the abstract oracle `sqrtQ`. -/
def cosineSimilarity (sqrtQ : ℚ → ℚ) (vectorA vectorB : List ℚ) : ℚ :=
  if vectorA.length = 0 ∨ vectorB.length = 0 ∨ vectorA.length ≠ vectorB.length then 0
  else
    let dot := ((vectorA.zip vectorB).map (fun p => p.1 * p.2)).sum
    let magA := (vectorA.map (fun a => a * a)).sum
    let magB := (vectorB.map (fun b => b * b)).sum
    if magA = 0 ∨ magB = 0 then 0
    else dot / (sqrtQ magA * sqrtQ magB)

/-- `lexicalSimilarity(queryTokens, docTokens)` from `textUtils.ts`. -/
def lexicalSimilarity (sqrtQ : ℚ → ℚ) (queryTokens docTokens : List Str) : ℚ :=
  if queryTokens.length = 0 ∨ docTokens.length = 0 then 0
  else
    let hits := (queryTokens.filter (fun t => docTokens.contains t)).length
    (hits : ℚ) / sqrtQ ((queryTokens.length : ℚ) * (docTokens.length : ℚ))

/-! ## Graph relevance engine (`graphLite.ts`)

A loaded graph (`GraphRuntime` in the source, produced by
`buildRuntime`) is modelled by its node list, its adjacency map
(`adj.get(id) ?? []`) and its token index (`tokenToNodeIds.get(token)`,
`undefined` modelled by `[]`).  The load-time invariants established by
`buildRuntime` — node ids de-duplicated, every edge weight clamped to
`[0.01, 10]`, every edge endpoint an existing node id — appear as
hypotheses of the theorems that need them. -/

/-- A graph node as far as the query pipeline observes it. -/
structure GNode where
  id : Str
  label : Str
deriving DecidableEq

/-- A loaded relevance graph (`GraphRuntime`). -/
structure GraphRT where
  nodes : List GNode
  adj : Str → List (Str × ℚ)
  tokenToNodeIds : Str → List Str

/-- `Map.get(id) ?? 0` over an association-list model of a JS `Map`
from node id to number (first binding wins; the maps built here have
distinct keys). -/
def seedsGet (seeds : List (Str × ℚ)) (id : Str) : ℚ :=
  ((seeds.find? (fun p => p.1 == id)).map (fun p => p.2)).getD 0

/-- `seeds.set(id, (seeds.get(id) ?? 0) + incr)` on the association
list: add to the existing binding or append a new one (JS `Map`
preserves first-insertion key order). -/
def assocAdd (l : List (Str × ℚ)) (k : Str) (v : ℚ) : List (Str × ℚ) :=
  match l with
  | [] => [(k, v)]
  | (k', v') :: rest =>
    if k' = k then (k', v' + v) :: rest else (k', v') :: assocAdd rest k v

/-- Result of `buildSeedScores` (second revision of `graphLite.ts`). -/
structure SeedResult where
  seeds : List (Str × ℚ)
  matchedTokens : List Str
  allQueryTokens : List Str

/-- `buildSeedScores(graph, queryText, graphContext)`: tokenize
`[queryText, graphContext ?? ''].join('\n')`, accumulate `1/|ids|` on
every node matched by a token, and normalize by the maximum seed
weight.  `matchedTokens` is the set of merged-text tokens that matched
at least one node (the token list is already de-duplicated, so a list
models the JS `Set`). -/
def buildSeedScores (graph : GraphRT) (queryText : Str) (graphContext : Option Str) :
    SeedResult :=
  let merged := queryText ++ '\n' :: graphContext.getD []
  let tokens := tokenizeForSearch merged
  let matchedTokens := tokens.filter (fun t => graph.tokenToNodeIds t ≠ [])
  let seeds := tokens.foldl (fun s t =>
    let ids := graph.tokenToNodeIds t
    if ids = [] then s
    else ids.foldl (fun s id => assocAdd s id (1 / (ids.length : ℚ))) s) []
  if seeds = [] then ⟨seeds, matchedTokens, tokenizeForSearch queryText⟩
  else
    let maxSeed :=
      match seeds.map (fun p => p.2) with
      | [] => 1
      | v :: vs => vs.foldl qmax v
    ⟨seeds.map (fun p => (p.1, p.2 / maxSeed)), matchedTokens, tokenizeForSearch queryText⟩

/-- `Math.max(0, hanChars.length - 1)` (`parseChineseBigramCount`). -/
def parseChineseBigramCount (text : Str) : Nat :=
  (text.filter isHanChar).length - 1

/-- `clamp(value, min, max)` from the source:
`Math.max(min, Math.min(max, value))`. -/
def clamp (value lo hi : ℚ) : ℚ := qmax lo (qmin hi value)

/-- The multi-hop hint substrings of `estimateQueryComplexity`. -/
def multiHopHints : List Str :=
  ["同时".toList, "并且".toList, "以及".toList, "关联".toList, "关系".toList,
    "如何".toList, "怎么".toList, "影响".toList, "为什么".toList, "综合".toList]

/-- Does `pat` occur as a prefix of `hay`? -/
def headMatches : Str → Str → Bool
  | [], _ => true
  | _ :: _, [] => false
  | a :: pat, b :: hay => a = b && headMatches pat hay

/-- JS `hay.includes(pat)`: substring containment. -/
def hasSubstring (pat : Str) : Str → Bool
  | [] => headMatches pat []
  | c :: rest => headMatches pat (c :: rest) || hasSubstring pat rest

/-- `estimateQueryComplexity(queryText)` from `graphLite.ts` (second
revision): hint occurrences, normalized length, Han-bigram count,
blended `0.5/0.25/0.25` and clamped to `[0, 1]`. -/
def estimateQueryComplexity (queryText : Str) : ℚ :=
  let normalized := queryText.map Char.toLower
  let hintCount := (multiHopHints.filter (fun h => hasSubstring h normalized)).length
  let lengthScore := clamp ((normalized.length : ℚ) / 60) 0 1
  let bigramScore := clamp ((parseChineseBigramCount normalized : ℚ) / 24) 0 1
  let hintScore := clamp ((hintCount : ℚ) / 4) 0 1
  clamp (hintScore * 0.5 + lengthScore * 0.25 + bigramScore * 0.25) 0 1

/-- `next.set(id, (next.get(id) ?? 0) + q)`: pointwise addition at one
key of a total-function model of a JS `Map` of numbers. -/
def addAt (f : Str → ℚ) (x : Str) (q : ℚ) : Str → ℚ :=
  Function.update f x (f x + q)

/-- `seeds.values().reduce((sum, v) => sum + v, 0) || 1`. -/
def seedNormOf (seeds : List (Str × ℚ)) : ℚ :=
  if (seeds.map (fun p => p.2)).sum = 0 then 1 else (seeds.map (fun p => p.2)).sum

/-- The initial score map of `runPersonalizedPageRank`:
`scores.set(node.id, (seeds.get(node.id) ?? 0) / seedNorm)` for every
node, everything else defaulting to `0`. -/
def pprInit (graph : GraphRT) (seeds : List (Str × ℚ)) : Str → ℚ :=
  graph.nodes.foldl
    (fun sc n => Function.update sc n.id (seedsGet seeds n.id / seedNormOf seeds))
    (fun _ => 0)

/-- `weightSum`: `outgoing.reduce((sum, e) => sum + e.weight, 0) || 1`. -/
def weightSumOf (outgoing : List (Str × ℚ)) : ℚ :=
  if (outgoing.map (fun e => e.2)).sum = 0 then 1
  else (outgoing.map (fun e => e.2)).sum

/-- The body of the distribution loop of `runPersonalizedPageRank` for
one node: a dangling node keeps `alpha * current`, any other node
distributes it over its outgoing edges proportionally to edge
weight. -/
def pprNodePass (graph : GraphRT) (alpha : ℚ) (scores : Str → ℚ)
    (nx : Str → ℚ) (n : GNode) : Str → ℚ :=
  if graph.adj n.id = [] then addAt nx n.id (alpha * scores n.id)
  else
    (graph.adj n.id).foldl
      (fun nx2 e =>
        addAt nx2 e.1 (alpha * scores n.id * (e.2 / weightSumOf (graph.adj n.id))))
      nx

/-- One power iteration of `runPersonalizedPageRank`: the restart term
`(1 - alpha) * seed/seedNorm` at every node, then each node either
keeps `alpha * current` (no outgoing edges) or distributes it along
its outgoing edges proportionally to edge weight. -/
def pprStep (graph : GraphRT) (seeds : List (Str × ℚ)) (alpha : ℚ)
    (scores : Str → ℚ) : Str → ℚ :=
  graph.nodes.foldl (pprNodePass graph alpha scores)
    (graph.nodes.foldl
      (fun nx n =>
        Function.update nx n.id
          ((1 - alpha) * (seedsGet seeds n.id / seedNormOf seeds)))
      (fun _ => 0))

/-- The total absolute change between two score maps over the graph's
nodes (`delta` in the source loop). -/
def pprDelta (graph : GraphRT) (scores next : Str → ℚ) : ℚ :=
  (graph.nodes.map (fun n => |next n.id - scores n.id|)).sum

/-- The `for (iter …) { … if (delta < 1e-6) break; }` loop of
`runPersonalizedPageRank`, with the remaining iteration budget as
fuel. -/
def pprLoop (graph : GraphRT) (seeds : List (Str × ℚ)) (alpha : ℚ) :
    Nat → (Str → ℚ) → (Str → ℚ)
  | 0, scores => scores
  | fuel + 1, scores =>
    let next := pprStep graph seeds alpha scores
    if pprDelta graph scores next < 1 / 1000000 then next
    else pprLoop graph seeds alpha fuel next

/-- `runPersonalizedPageRank(graph, seeds, alpha, maxIter = 30)` from
`graphLite.ts` (second revision); the returned JS `Map` (keys = node
ids, in node order) is modelled by a total function defaulting to 0. -/
def runPersonalizedPageRank (graph : GraphRT) (seeds : List (Str × ℚ))
    (alpha : ℚ) (maxIter : Nat := 30) : Str → ℚ :=
  if graph.nodes = [] ∨ seeds = [] then fun _ => 0
  else pprLoop graph seeds alpha maxIter (pprInit graph seeds)

/-- `[...nodeScores.values()].sort((a, b) => b - a).slice(0, topN)`
summed (`sumTopScores`); the map's value order is the node order. -/
def sumTopScores (values : List ℚ) (topN : Nat) : ℚ :=
  ((List.insertionSort (fun a b : ℚ => b ≤ a) values).take topN).sum

/-- The sum of the scores of all graph nodes under a score map. -/
def nodeSum (graph : GraphRT) (scores : Str → ℚ) : ℚ :=
  (graph.nodes.map (fun n => scores n.id)).sum

/-- Defaultable configuration consumed by the ranking core
(`env.RAG_GRAPH_*`). -/
structure RagConfig where
  minConfidence : ℚ
  maxWeight : ℚ
  rrfWeight : ℚ
  pprAlpha : ℚ
  topNodes : Nat

/-- `Number(x.toFixed(6))` under exact arithmetic: round to six
decimal places (half away from zero on the non-negative values that
occur here). -/
def roundTo6 (x : ℚ) : ℚ := (round (x * 1000000) : ℤ) / 1000000

/-- `adaptiveAlpha` of `computeGraphQueryFeatures`:
`clamp(alpha0 − (1 − complexity)·0.18, 0.6, alpha0)`. -/
def adaptiveAlphaOf (cfg : RagConfig) (queryText : Str) : ℚ :=
  clamp (cfg.pprAlpha - (1 - estimateQueryComplexity queryText) * 0.18)
    0.6 cfg.pprAlpha

/-- `adaptiveTopNodes` of `computeGraphQueryFeatures`:
`max(4, min(topNodes0, round(topNodes0·(0.45 + complexity·0.55))))`. -/
def adaptiveTopNodesOf (cfg : RagConfig) (queryText : Str) : Nat :=
  max 4 (min cfg.topNodes
    (round ((cfg.topNodes : ℚ) *
      (0.45 + estimateQueryComplexity queryText * 0.55))).toNat)

/-- `seedCoverage` of `computeGraphQueryFeatures`:
`matchedTokens.size / max(allQueryTokens.length, 1)`.  The matched
tokens come from the *merged* query+context text while the
denominator counts only the query's own tokens. -/
def seedTokenCoverage (graph : GraphRT) (queryText : Str)
    (graphContext : Option Str) : ℚ :=
  ((buildSeedScores graph queryText graphContext).matchedTokens.length : ℚ) /
    (max (buildSeedScores graph queryText graphContext).allQueryTokens.length 1 : Nat)

/-- The PPR score values in node order
(`[...nodeScores.values()]`). -/
def pprValuesOf (cfg : RagConfig) (graph : GraphRT) (queryText : Str)
    (graphContext : Option Str) : List ℚ :=
  graph.nodes.map (fun n =>
    runPersonalizedPageRank graph
      (buildSeedScores graph queryText graphContext).seeds
      (adaptiveAlphaOf cfg queryText) 30 n.id)

/-- `concentration` of `computeGraphQueryFeatures`:
`topNMass > 0 ? top3Mass / topNMass : 0`. -/
def concentrationOf (cfg : RagConfig) (graph : GraphRT) (queryText : Str)
    (graphContext : Option Str) : ℚ :=
  let values := pprValuesOf cfg graph queryText graphContext
  let top3Mass := sumTopScores values 3
  let topNMass := sumTopScores values (adaptiveTopNodesOf cfg queryText)
  if 0 < topNMass then top3Mass / topNMass else 0

/-- The confidence computation of `computeGraphQueryFeatures` (second
revision of `graphLite.ts`), for a query whose graph has loaded:
complexity, adaptive restart probability and top-node count, seeding,
personalized PageRank, seed-token coverage, top-3 concentration, the
`0.45/0.35/0.2` blend clamped to `[0, 1]`, and the `toFixed(6)`
rounding of the returned value.  When no seed matches, the returned
confidence is 0.  The token-boost map built alongside (whose
`ln`-based idf weights have no exact rational model) does not feed
into the confidence and is not needed by its callers' claims. -/
def computeGraphConfidence (cfg : RagConfig) (graph : GraphRT)
    (queryText : Str) (graphContext : Option Str) : ℚ :=
  if (buildSeedScores graph queryText graphContext).seeds = [] then 0
  else
    roundTo6 (clamp
      (seedTokenCoverage graph queryText graphContext * 0.45 +
        concentrationOf cfg graph queryText graphContext * 0.35 +
        estimateQueryComplexity queryText * 0.2) 0 1)

/-- `graphTokenSimilarity(docTokens, tokenBoost)` from `graphLite.ts`;
the boost `Map` is an association list so that its size is
observable. -/
def graphTokenSimilarity (sqrtQ : ℚ → ℚ) (docTokens : List Str)
    (tokenBoost : List (Str × ℚ)) : ℚ :=
  if docTokens.length = 0 ∨ tokenBoost.length = 0 then 0
  else
    let uniqueDocTokens := docTokens.foldl
      (fun acc t => if acc.contains t then acc else acc ++ [t]) []
    let hitScore := (uniqueDocTokens.map
      (fun t => (((tokenBoost.find? (fun p => p.1 == t)).map (fun p => p.2)).getD 0))).sum
    hitScore / sqrtQ ((docTokens.length : ℚ) * (max tokenBoost.length 1 : Nat))

/-- `reciprocalRankFusion(rank, k = 60)` from `graphLite.ts`. -/
def reciprocalRankFusion (rank : Nat) (k : ℚ := 60) : ℚ := 1 / (k + rank)

/-! ## Candidate scoring and fusion (`ingestKnowledge.ts`)

`retrieveRelevantChunks` interleaves pure scoring with three awaited
collaborators.  Each collaborator is an explicit input:

* `candidatesRes` — the passage-store lookup (`loadCandidates`); a
  store failure propagates, so it is an `Except`;
* `graphFeatures` — the `(tokenBoost, confidence)` pair produced by
  `computeGraphQueryFeatures` (which never throws: graph-load failures
  degrade to zero confidence inside it);
* `embedRes` — the result of `createEmbeddings([queryText])`, an
  `Except` because the provider may throw (the failure is caught and
  degrades to an empty query embedding). -/

/-- A candidate passage as fetched by `loadCandidates` (the projected
`CandidateChunk` fields). -/
structure Candidate where
  id : Str
  sourceId : Str
  sourceTitle : Str
  sourcePath : Option Str
  sectionTitle : Option Str
  chunkIndex : Nat
  text : Str
  embedding : Option (List ℚ)
  keywords : Option (List Str)
deriving DecidableEq

/-- A scored result (`RetrievedChunk` in the source). -/
structure RetrievedChunk where
  id : Str
  sourceId : Str
  sourceTitle : Str
  sourcePath : Option Str
  sectionTitle : Option Str
  chunkIndex : Nat
  text : Str
  score : ℚ
  embeddingScore : ℚ
  lexicalScore : ℚ
  graphScore : ℚ
  rrfScore : ℚ
deriving DecidableEq

/-- `computeGraphWeight(embeddingEnabled, confidence)` from
`ingestKnowledge.ts`. -/
def computeGraphWeight (cfg : RagConfig) (embeddingEnabled : Bool)
    (confidence : ℚ) : ℚ :=
  if confidence < cfg.minConfidence then 0
  else if embeddingEnabled then clamp (0.04 + confidence * 0.12) 0.04 cfg.maxWeight
  else clamp (0.05 + confidence * 0.08) 0.05 cfg.maxWeight

/-- `graphDocGate(lexicalScore, embeddingScore)` from
`ingestKnowledge.ts`. -/
def graphDocGate (lexicalScore embeddingScore : ℚ) : ℚ :=
  clamp (lexicalScore * 2.4 + embeddingScore * 0.9 + 0.08) 0 1

/-- The per-candidate body of the `candidates.map(...)` block of
`retrieveRelevantChunks` (lines 350–384): signal scores, adaptive
weights and the raw combined score. -/
def scoreCandidate (sqrtQ : ℚ → ℚ) (cfg : RagConfig) (queryTokens : List Str)
    (queryEmbedding : List ℚ) (tokenBoost : List (Str × ℚ)) (confidence : ℚ)
    (candidate : Candidate) : RetrievedChunk :=
  let docTokens :=
    if candidate.keywords.getD [] ≠ [] then candidate.keywords.getD []
    else tokenizeForSearch candidate.text
  let lexicalScore := lexicalSimilarity sqrtQ queryTokens docTokens
  let embeddingScore := cosineSimilarity sqrtQ queryEmbedding (candidate.embedding.getD [])
  let rawGraphScore := graphTokenSimilarity sqrtQ docTokens tokenBoost
  let gatedGraphScore := rawGraphScore * graphDocGate lexicalScore embeddingScore
  let graphWeight := computeGraphWeight cfg (decide (0 < queryEmbedding.length)) confidence
  let embeddingWeight : ℚ := if 0 < queryEmbedding.length then 0.7 else 0
  let lexicalWeight : ℚ := if 0 < queryEmbedding.length then 0.3 else 1
  let embeddingWeight :=
    if 0 < queryEmbedding.length then clamp (0.76 - graphWeight * 0.85) 0.58 0.76
    else embeddingWeight
  let lexicalWeight :=
    if 0 < queryEmbedding.length then clamp (1 - embeddingWeight - graphWeight) 0.16 0.34
    else clamp (1 - graphWeight) 0.8 1
  let score := embeddingScore * embeddingWeight + lexicalScore * lexicalWeight +
    gatedGraphScore * graphWeight
  { id := candidate.id
    sourceId := candidate.sourceId
    sourceTitle := candidate.sourceTitle
    sourcePath := candidate.sourcePath
    sectionTitle := candidate.sectionTitle
    chunkIndex := candidate.chunkIndex
    text := candidate.text
    score := score
    embeddingScore := embeddingScore
    lexicalScore := lexicalScore
    graphScore := gatedGraphScore
    rrfScore := 0 }

/-- The stable-sort order used to model
`[...items].sort((a, b) => key(b) - key(a))`: key descending, original
position ascending on ties.  JS guarantees a stable sort, whose output
is exactly the (unique) sort by this lexicographic order on
index-tagged entries. -/
def lexRel (key : RetrievedChunk → ℚ) (a b : Nat × RetrievedChunk) : Prop :=
  key b.2 < key a.2 ∨ (key a.2 = key b.2 ∧ a.1 ≤ b.1)

instance (key : RetrievedChunk → ℚ) : DecidableRel (lexRel key) := fun _ _ => by
  unfold lexRel; infer_instance

instance (key : RetrievedChunk → ℚ) : IsTotal (Nat × RetrievedChunk) (lexRel key) where
  total a b := by
    unfold lexRel
    rcases lt_trichotomy (key a.2) (key b.2) with h | h | h
    · exact Or.inr (Or.inl h)
    · rcases Nat.le_total a.1 b.1 with h' | h'
      · exact Or.inl (Or.inr ⟨h, h'⟩)
      · exact Or.inr (Or.inr ⟨h.symm, h'⟩)
    · exact Or.inl (Or.inl h)

instance (key : RetrievedChunk → ℚ) : IsTrans (Nat × RetrievedChunk) (lexRel key) where
  trans a b c hab hbc := by
    unfold lexRel at *
    rcases hab with hab | ⟨hab, hab'⟩ <;> rcases hbc with hbc | ⟨hbc, hbc'⟩
    · exact Or.inl (hbc.trans hab)
    · exact Or.inl (hbc ▸ hab)
    · exact Or.inl (hab ▸ hbc)
    · exact Or.inr ⟨hab.trans hbc, hab'.trans hbc'⟩

/-- A stable descending sort by `key`, the model of JS
`[...items].sort((a, b) => key(b) - key(a))`. -/
def sortByDesc (key : RetrievedChunk → ℚ) (items : List RetrievedChunk) :
    List RetrievedChunk :=
  (List.insertionSort (lexRel key) items.enum).map (fun p => p.2)

/-- `new Map(items.map((item, idx) => [item.id, idx + 1]))`: sequential
insertion, later bindings overwriting earlier ones. -/
def rankFold (items : List RetrievedChunk) (i : Nat) (m : Str → Option Nat) :
    Str → Option Nat :=
  match items with
  | [] => m
  | c :: rest => rankFold rest (i + 1) (Function.update m c.id (some (i + 1)))

/-- The 1-based rank map of a sorted candidate list. -/
def buildRankMap (items : List RetrievedChunk) : Str → Option Nat :=
  rankFold items 0 (fun _ => none)

/-- The rank-fusion stage of `retrieveRelevantChunks` (lines 386–408):
three stable descending sorts, rank maps, the confidence-scaled graph
RRF weight, and the `0.82/0.18` blend into the final score. -/
def fuseMerged (cfg : RagConfig) (confidence : ℚ)
    (scored : List RetrievedChunk) : List RetrievedChunk :=
  let byEmbedding := sortByDesc (fun r => r.embeddingScore) scored
  let byLexical := sortByDesc (fun r => r.lexicalScore) scored
  let byGraph := sortByDesc (fun r => r.graphScore) scored
  let embRank := buildRankMap byEmbedding
  let lexRank := buildRankMap byLexical
  let graphRank := buildRankMap byGraph
  let graphRankWeight :=
    if confidence < cfg.minConfidence then 0
    else clamp (confidence * cfg.rrfWeight) 0 1
  scored.map (fun item =>
    let rrfScore :=
      reciprocalRankFusion ((embRank item.id).getD 999) +
      reciprocalRankFusion ((lexRank item.id).getD 999) +
      reciprocalRankFusion ((graphRank item.id).getD 999) * graphRankWeight
    { item with
      rrfScore := rrfScore
      score := item.score * 0.82 + rrfScore * 0.18 })

/-- The scored candidate list of `retrieveRelevantChunks` before rank
fusion. -/
def retrieveScored (sqrtQ : ℚ → ℚ) (cfg : RagConfig) (queryText : Str)
    (queryEmbedding : List ℚ) (graphFeatures : List (Str × ℚ) × ℚ)
    (candidates : List Candidate) : List RetrievedChunk :=
  candidates.map (scoreCandidate sqrtQ cfg (tokenizeForSearch queryText)
    queryEmbedding graphFeatures.1 graphFeatures.2)

/-- The merged (fused) candidate list of `retrieveRelevantChunks`. -/
def retrieveMerged (sqrtQ : ℚ → ℚ) (cfg : RagConfig) (queryText : Str)
    (queryEmbedding : List ℚ) (graphFeatures : List (Str × ℚ) × ℚ)
    (candidates : List Candidate) : List RetrievedChunk :=
  fuseMerged cfg graphFeatures.2
    (retrieveScored sqrtQ cfg queryText queryEmbedding graphFeatures candidates)

/-- `vectors[0] ?? []` applied to the embedding-provider outcome: a
thrown provider error is caught and degrades to the empty vector. -/
def queryEmbeddingOf (embedRes : Except Unit (List (List ℚ))) : List ℚ :=
  match embedRes with
  | .error _ => []
  | .ok vectors => vectors.headD []

/-- `retrieveRelevantChunks(query, topK, options)` from
`ingestKnowledge.ts`: trim the query (blank → `[]`), propagate a
passage-store failure, return `[]` on an empty candidate set,
otherwise score, fuse and return the top-`topK` by final score
(stable descending sort). -/
def retrieveRelevantChunks (sqrtQ : ℚ → ℚ) (cfg : RagConfig) (query : Str)
    (topK : Nat) (candidatesRes : Except Unit (List Candidate))
    (graphFeatures : List (Str × ℚ) × ℚ)
    (embedRes : Except Unit (List (List ℚ))) :
    Except Unit (List RetrievedChunk) :=
  let queryText := trimStr query
  if queryText = [] then .ok []
  else
    match candidatesRes with
    | .error e => .error e
    | .ok candidates =>
      if candidates = [] then .ok []
      else
        let queryEmbedding := queryEmbeddingOf embedRes
        let merged := retrieveMerged sqrtQ cfg queryText queryEmbedding
          graphFeatures candidates
        .ok ((sortByDesc (fun r => r.score) merged).take topK)

/-- The configured default `RAG_TOP_K` (`env.ts`: positive, at most 20,
default 6). -/
def ragTopKDefault : Nat := 6

/-- The `topK` validation of the HTTP boundary
(`agentController.ts` `chatSchema`:
`z.coerce.number().int().positive().max(20)`). -/
def chatTopKValid (topK : Nat) : Prop := 1 ≤ topK ∧ topK ≤ 20

/-! ## Helper lemmas -/

theorem qmin_le_left {a b : ℚ} (h : a ≤ b) : qmin a b = a := by
  simp [qmin, h]

theorem le_qmax_left (a b : ℚ) : a ≤ qmax a b := by
  unfold qmax; split <;> linarith

theorem qmax_le {a b c : ℚ} (ha : a ≤ c) (hb : b ≤ c) : qmax a b ≤ c := by
  unfold qmax; split <;> assumption

theorem qmin_le_right (a b : ℚ) : qmin a b ≤ b := by
  unfold qmin; split <;> linarith

theorem qmin_le_fst (a b : ℚ) : qmin a b ≤ a := by
  unfold qmin; split <;> linarith

theorem clamp_lower (v lo hi : ℚ) : lo ≤ clamp v lo hi :=
  le_qmax_left lo (qmin hi v)

theorem clamp_upper {v lo hi : ℚ} (h : lo ≤ hi) : clamp v lo hi ≤ hi :=
  qmax_le h (qmin_le_fst hi v)

theorem clamp_eq_self {v lo hi : ℚ} (hlo : lo ≤ v) (hhi : v ≤ hi) :
    clamp v lo hi = v := by
  unfold clamp qmin qmax; split_ifs <;> linarith

/-- A trimmed all-whitespace string is empty. -/
theorem trimStr_eq_nil {s : Str} (h : ∀ c ∈ s, wsChar c = true) :
    trimStr s = [] := by
  unfold trimStr
  rw [List.dropWhile_eq_nil_iff.mpr h]
  simp

/-- `computeGraphWeight` with embeddings unavailable stays in
`[0, 0.13]` whenever the confidence is at most 1. -/
theorem computeGraphWeight_noEmbed_bounds (cfg : RagConfig) {conf : ℚ}
    (h1 : conf ≤ 1) :
    0 ≤ computeGraphWeight cfg false conf ∧
      computeGraphWeight cfg false conf ≤ 13 / 100 := by
  unfold computeGraphWeight clamp qmin qmax
  split_ifs
  all_goals first
    | exact (‹False›).elim
    | constructor <;> linarith

/-! ## C6 — blank queries -/

/-- **C6.**  For every `topK` and every query that is empty or
whitespace-only, `retrieveRelevantChunks` returns the empty list
immediately: the result is `ok []` for *all* passage-store, graph and
embedding-provider outcomes (so none of them can influence it, and a
store failure does not propagate), and no error escapes. -/
theorem blank_query_returns_empty (sqrtQ : ℚ → ℚ) (cfg : RagConfig)
    (query : Str) (topK : Nat) (candidatesRes : Except Unit (List Candidate))
    (graphFeatures : List (Str × ℚ) × ℚ)
    (embedRes : Except Unit (List (List ℚ)))
    (hblank : ∀ c ∈ query, wsChar c = true) :
    retrieveRelevantChunks sqrtQ cfg query topK candidatesRes graphFeatures
      embedRes = .ok [] := by
  unfold retrieveRelevantChunks
  rw [trimStr_eq_nil hblank]
  simp

/-- Witness for C6 at the whitespace query `"  \t"`, `topK = 7`, with
a failing store and a failing embedding provider. -/
theorem blank_query_returns_empty_witness :
    (∀ c ∈ ("  \t".toList : Str), wsChar c = true) ∧
      retrieveRelevantChunks (fun _ => 0)
        ⟨35 / 100, 18 / 100, 1 / 2, 85 / 100, 12⟩ "  \t".toList 7
        (.error ()) ([], 0) (.error ()) = .ok [] :=
  ⟨by decide, blank_query_returns_empty _ _ _ _ _ _ _ (by decide)⟩

/-! ## C1 — adaptive weighting policy -/

/-- The C1 weighting policy, for one candidate scored by
`retrieveRelevantChunks` with graph confidence `confidence` (the
confidence produced by the graph engine always lies in `[0, 1]`,
which the complement clause needs). -/
def WeightPolicyHolds (sqrtQ : ℚ → ℚ) (cfg : RagConfig)
    (queryTokens : List Str) (queryEmbedding : List ℚ)
    (tokenBoost : List (Str × ℚ)) (confidence : ℚ)
    (candidate : Candidate) : Prop :=
  let r := scoreCandidate sqrtQ cfg queryTokens queryEmbedding tokenBoost
    confidence candidate
  let gwE := computeGraphWeight cfg true confidence
  let gwL := computeGraphWeight cfg false confidence
  (confidence < cfg.minConfidence → gwE = 0 ∧ gwL = 0) ∧
  (¬ confidence < cfg.minConfidence →
    gwE = clamp (0.04 + confidence * 0.12) 0.04 cfg.maxWeight ∧
    gwL = clamp (0.05 + confidence * 0.08) 0.05 cfg.maxWeight) ∧
  (0 < queryEmbedding.length →
    r.score = r.embeddingScore * clamp (0.76 - gwE * 0.85) 0.58 0.76 +
      r.lexicalScore *
        clamp (1 - clamp (0.76 - gwE * 0.85) 0.58 0.76 - gwE) 0.16 0.34 +
      r.graphScore * gwE) ∧
  (queryEmbedding.length = 0 →
    r.score = r.embeddingScore * 0 + r.lexicalScore * (1 - gwL) +
      r.graphScore * gwL)

/-- **C1.**  For every candidate scored by `retrieveRelevantChunks`:
the graph weight is 0 below the confidence threshold and otherwise
`clamp(offset + confidence·slope, minWeight, RAG_GRAPH_MAX_WEIGHT)`
with `0.04/0.12` (embedding available) or `0.05/0.08` (unavailable);
with an embedding, `embeddingWeight = clamp(0.76 − gw·0.85, 0.58,
0.76)` and `lexicalWeight = clamp(1 − embeddingWeight − gw, 0.16,
0.34)`; without one, the lexical weight is exactly the complement
`1 − gw`; and the raw combined score is the weighted sum of the three
signal scores. -/
theorem candidate_weighting_policy (sqrtQ : ℚ → ℚ) (cfg : RagConfig)
    (queryTokens : List Str) (queryEmbedding : List ℚ)
    (tokenBoost : List (Str × ℚ)) (confidence : ℚ) (candidate : Candidate)
    (hconf : confidence ≤ 1) :
    WeightPolicyHolds sqrtQ cfg queryTokens queryEmbedding tokenBoost
      confidence candidate := by
  unfold WeightPolicyHolds
  refine ⟨fun h => ?_, fun h => ?_, fun h => ?_, fun h => ?_⟩
  · constructor <;> simp [computeGraphWeight, h]
  · constructor <;> simp [computeGraphWeight, h]
  · simp only [scoreCandidate, h, if_true, decide_eq_true h, if_pos h]
    simp [computeGraphWeight]
  · have hnot : ¬ 0 < queryEmbedding.length := by omega
    have hdec : decide (0 < queryEmbedding.length) = false := by
      simp [hnot]
    obtain ⟨hgw0, hgw13⟩ := computeGraphWeight_noEmbed_bounds cfg hconf
    simp only [scoreCandidate, hdec, if_neg hnot]
    rw [clamp_eq_self (by linarith) (by linarith)]

/-- A concrete configuration for witnesses (mirrors plausible
`env.RAG_GRAPH_*` values). -/
def sampleCfg : RagConfig :=
  { minConfidence := 35 / 100
    maxWeight := 18 / 100
    rrfWeight := 1 / 2
    pprAlpha := 85 / 100
    topNodes := 12 }

/-- A concrete candidate passage for witnesses. -/
def sampleCandidate : Candidate :=
  { id := "a".toList
    sourceId := "s1".toList
    sourceTitle := "doc".toList
    sourcePath := none
    sectionTitle := none
    chunkIndex := 0
    text := "ab cd".toList
    embedding := some [1, 0]
    keywords := none }

/-- Witness for C1 at confidence `1/2` and a one-dimensional query
embedding. -/
theorem candidate_weighting_policy_witness :
    ((1 : ℚ) / 2 ≤ 1) ∧
      WeightPolicyHolds (fun _ => 2) sampleCfg ["ab".toList] [1]
        [("ab".toList, 1 / 2)] (1 / 2) sampleCandidate :=
  ⟨by norm_num, candidate_weighting_policy _ _ _ _ _ _ _ (by norm_num)⟩

/-! ## C5 — chunk coverage

The window slices of the chunking loop do cover the normalized text
exactly and share exactly `overlap` characters between neighbours.
The *returned* chunks, however, are the trimmed slices, so blanks at
window boundaries are lost: reconstruction and exact sharing fail for
the returned chunks (see the counterexample). -/

/-- Concatenation of the non-overlapping heads: the first `step`
characters of every slice except the last, which contributes in
full. -/
def concatHeads (step : Nat) : List Str → Str
  | [] => []
  | w :: rest => if rest = [] then w else w.take step ++ concatHeads step rest

theorem chunkWindowsAux_ne_nil (fuel : Nat) (s : Str) (size step : Nat) :
    chunkWindowsAux fuel s size step ≠ [] := by
  cases fuel
  · simp [chunkWindowsAux]
  · simp only [chunkWindowsAux]
    split <;> simp

theorem chunkWindowsAux_head (fuel : Nat) (s : Str) (size step : Nat) :
    (chunkWindowsAux fuel s size step).head? = some s ∨
      (chunkWindowsAux fuel s size step).head? = some (s.take size) := by
  cases fuel <;> simp only [chunkWindowsAux]
  · exact Or.inl rfl
  · split
    · exact Or.inl rfl
    · exact Or.inr rfl

theorem chunkWindowsAux_length_le (fuel : Nat) (s : Str) (size step : Nat)
    (hfuel : s.length ≤ fuel) (hstep : 1 ≤ step) :
    ∀ w ∈ chunkWindowsAux fuel s size step, w.length ≤ size := by
  induction fuel generalizing s with
  | zero =>
    intro w hw
    simp only [chunkWindowsAux, List.mem_singleton] at hw
    subst hw
    omega
  | succ fuel ih =>
    intro w hw
    simp only [chunkWindowsAux] at hw
    split at hw
    · simp only [List.mem_singleton] at hw
      subst hw
      assumption
    · rcases List.mem_cons.mp hw with hw | hw
      · subst hw
        simp
      · exact ih (s.drop step) (by simp; omega) w hw

theorem chunkWindowsAux_concatHeads (fuel : Nat) (s : Str) (size step : Nat)
    (hfuel : s.length ≤ fuel) (hstep : 1 ≤ step) (hss : step ≤ size) :
    concatHeads step (chunkWindowsAux fuel s size step) = s := by
  induction fuel generalizing s with
  | zero =>
    have : s = [] := by
      have := List.length_eq_zero.mp (Nat.le_zero.mp hfuel)
      exact this
    subst this
    rfl
  | succ fuel ih =>
    simp only [chunkWindowsAux]
    split
    · rfl
    · rw [concatHeads, if_neg (chunkWindowsAux_ne_nil _ _ _ _)]
      rw [ih (s.drop step) (by simp; omega)]
      rw [List.take_take, Nat.min_eq_left hss, List.take_append_drop]

theorem chunkWindowsAux_chain (fuel : Nat) (s : Str) (size step : Nat) :
    List.Chain' (fun a b : Str => a.drop step = b.take (size - step))
      (chunkWindowsAux fuel s size step) := by
  induction fuel generalizing s with
  | zero => simp [chunkWindowsAux]
  | succ fuel ih =>
    simp only [chunkWindowsAux]
    split
    · simp
    · refine List.chain'_cons'.mpr ⟨?_, ih (s.drop step)⟩
      intro y hy
      have hrel : (s.take size).drop step = (s.drop step).take (size - step) :=
        List.drop_take size step s
      rcases chunkWindowsAux_head fuel (s.drop step) size step with hh | hh
      · rw [hy] at hh
        cases hh
        exact hrel
      · rw [hy] at hh
        cases hh
        rw [hrel, List.take_take, Nat.min_eq_left (Nat.sub_le _ _)]

/-- Trimming never lengthens a string. -/
theorem trimStr_length_le (s : Str) : (trimStr s).length ≤ s.length := by
  unfold trimStr
  calc ((s.dropWhile wsChar).reverse.dropWhile wsChar).reverse.length
      = ((s.dropWhile wsChar).reverse.dropWhile wsChar).length := by
        rw [List.length_reverse]
    _ ≤ (s.dropWhile wsChar).reverse.length :=
        (List.dropWhile_sublist _).length_le
    _ = (s.dropWhile wsChar).length := by rw [List.length_reverse]
    _ ≤ s.length := (List.dropWhile_sublist _).length_le

/-- The C5 chunking contract, amended to what the code guarantees:
every returned chunk fits in `chunkSize`; a short normalized text is
returned whole; and for a long text the *untrimmed* window slices
reconstruct the normalized text from their non-overlapping heads and
share exactly `overlap` characters between consecutive slices, the
returned chunks being precisely the non-empty trims of those
slices. -/
def ChunkingSpecHolds (text : Str) (chunkSize overlap : Nat) : Prop :=
  let s := normalizeText text
  let step := chunkSize - overlap
  (∀ c ∈ splitIntoChunks text chunkSize overlap, c.length ≤ chunkSize) ∧
  (s ≠ [] → s.length ≤ chunkSize → splitIntoChunks text chunkSize overlap = [s]) ∧
  (chunkSize < s.length →
    (∀ w ∈ chunkWindows s chunkSize overlap, w.length ≤ chunkSize) ∧
    concatHeads step (chunkWindows s chunkSize overlap) = s ∧
    List.Chain' (fun a b : Str => a.drop step = b.take overlap)
      (chunkWindows s chunkSize overlap) ∧
    splitIntoChunks text chunkSize overlap =
      (chunkWindows s chunkSize overlap).filterMap
        (fun w => if trimStr w = [] then none else some (trimStr w)))

/-- **C5 (amended).**  For every text, `chunkSize > 0` and
`0 ≤ overlap < chunkSize`, the chunking contract above holds.  The
original claim — reconstruction and exact `overlap`-sharing for the
*returned* chunks — fails because each slice is trimmed before being
returned (see `splitIntoChunks_trim_counterexample`). -/
theorem splitIntoChunks_window_coverage (text : Str) (chunkSize overlap : Nat)
    (hsize : 0 < chunkSize) (hov : overlap < chunkSize) :
    ChunkingSpecHolds text chunkSize overlap := by
  have hstep : max (chunkSize - overlap) 1 = chunkSize - overlap := by omega
  have h1 : 1 ≤ chunkSize - overlap := by omega
  have h2 : chunkSize - overlap ≤ chunkSize := by omega
  have hwin : ∀ w ∈ chunkWindows (normalizeText text) chunkSize overlap,
      w.length ≤ chunkSize := by
    intro w hw
    unfold chunkWindows at hw
    rw [hstep] at hw
    exact chunkWindowsAux_length_le (normalizeText text).length
      (normalizeText text) chunkSize (chunkSize - overlap) le_rfl h1 w hw
  unfold ChunkingSpecHolds
  refine ⟨?_, ?_, ?_⟩
  · intro c hc
    simp only [splitIntoChunks] at hc
    split at hc
    · simp at hc
    · split at hc
      · simp only [List.mem_singleton] at hc
        subst hc
        omega
      · rw [List.mem_filterMap] at hc
        obtain ⟨w, hw, hweq⟩ := hc
        split at hweq
        · cases hweq
        · cases hweq
          calc (trimStr w).length ≤ w.length := trimStr_length_le w
            _ ≤ chunkSize := hwin w hw
  · intro hne hshort
    simp only [splitIntoChunks]
    rw [if_neg hne, if_pos hshort]
  · intro hlong
    have hrec := chunkWindowsAux_concatHeads (normalizeText text).length
      (normalizeText text) chunkSize (chunkSize - overlap) le_rfl h1 h2
    have hchain := chunkWindowsAux_chain (normalizeText text).length
      (normalizeText text) chunkSize (chunkSize - overlap)
    have hov' : chunkSize - (chunkSize - overlap) = overlap := by omega
    refine ⟨hwin, ?_, ?_, ?_⟩
    · unfold chunkWindows
      rw [hstep]
      exact hrec
    · unfold chunkWindows
      rw [hstep]
      rw [hov'] at hchain
      exact hchain
    · simp only [splitIntoChunks]
      rw [if_neg (by
          intro hnil
          rw [hnil] at hlong
          simp at hlong),
        if_neg (Nat.not_le.mpr hlong)]

/-- Counterexample to C5 as stated: at `text = "ab c"`, `size = 3`,
`overlap = 1` the returned chunks are `["ab", "c"]` (the slices
`"ab "` and `" c"`, trimmed), whose heads concatenate to `"abc"` ≠
`normalizeText "ab c" = "ab c"`, and which share no character at all
instead of exactly `overlap = 1`. -/
theorem splitIntoChunks_trim_counterexample :
    splitIntoChunks "ab c".toList 3 1 = ["ab".toList, "c".toList] ∧
      concatHeads 2 (splitIntoChunks "ab c".toList 3 1) ≠
        normalizeText "ab c".toList ∧
      ¬ List.Chain' (fun a b : Str => a.drop 2 = b.take 1)
        (splitIntoChunks "ab c".toList 3 1) := by
  refine ⟨by decide, by decide, ?_⟩
  intro h
  rw [show splitIntoChunks "ab c".toList 3 1 = ["ab".toList, "c".toList]
    from by decide] at h
  rw [List.chain'_cons] at h
  exact absurd h.1 (by decide)

/-- Witness for C5 (amended) at `text = "ab c"`, `size = 3`,
`overlap = 1`. -/
theorem splitIntoChunks_window_coverage_witness :
    (0 < 3 ∧ 1 < 3) ∧ ChunkingSpecHolds "ab c".toList 3 1 :=
  ⟨by decide, splitIntoChunks_window_coverage _ 3 1 (by decide) (by decide)⟩

/-! ## Membership and length facts about the fusion pipeline -/

/-- A member of the stable descending sort is a member of the input. -/
theorem mem_of_mem_sortByDesc {key : RetrievedChunk → ℚ}
    {l : List RetrievedChunk} {a : RetrievedChunk}
    (h : a ∈ sortByDesc key l) : a ∈ l := by
  unfold sortByDesc at h
  rw [List.mem_map] at h
  obtain ⟨p, hp, hpa⟩ := h
  have hp' : p ∈ l.enum := (List.perm_insertionSort (lexRel key) l.enum).mem_iff.mp hp
  subst hpa
  exact List.snd_mem_of_mem_enum hp'

theorem sortByDesc_length (key : RetrievedChunk → ℚ) (l : List RetrievedChunk) :
    (sortByDesc key l).length = l.length := by
  unfold sortByDesc
  rw [List.length_map, List.length_insertionSort, List.enum_length]

theorem fuseMerged_length (cfg : RagConfig) (confidence : ℚ)
    (scored : List RetrievedChunk) :
    (fuseMerged cfg confidence scored).length = scored.length := by
  simp [fuseMerged]

theorem retrieveMerged_length (sqrtQ : ℚ → ℚ) (cfg : RagConfig)
    (queryText : Str) (queryEmbedding : List ℚ)
    (graphFeatures : List (Str × ℚ) × ℚ) (candidates : List Candidate) :
    (retrieveMerged sqrtQ cfg queryText queryEmbedding graphFeatures
      candidates).length = candidates.length := by
  simp [retrieveMerged, fuseMerged_length, retrieveScored]

/-- On a non-blank query with a non-empty candidate list the retrieval
returns the top-`topK` of the stable descending final-score sort of
the fused candidates. -/
theorem retrieve_ok_eq (sqrtQ : ℚ → ℚ) (cfg : RagConfig) (query : Str)
    (topK : Nat) (cands : List Candidate)
    (graphFeatures : List (Str × ℚ) × ℚ)
    (embedRes : Except Unit (List (List ℚ)))
    (hq : trimStr query ≠ []) (hc : cands ≠ []) :
    retrieveRelevantChunks sqrtQ cfg query topK (.ok cands) graphFeatures
        embedRes =
      .ok ((sortByDesc (fun r => r.score)
        (retrieveMerged sqrtQ cfg (trimStr query) (queryEmbeddingOf embedRes)
          graphFeatures cands)).take topK) := by
  simp only [retrieveRelevantChunks]
  rw [if_neg hq, if_neg hc]

/-- The number of returned passages is `min topK (#candidates)`. -/
theorem retrieve_length (sqrtQ : ℚ → ℚ) (cfg : RagConfig) (query : Str)
    (topK : Nat) (cands : List Candidate)
    (graphFeatures : List (Str × ℚ) × ℚ)
    (embedRes : Except Unit (List (List ℚ)))
    (hq : trimStr query ≠ []) (hc : cands ≠ []) :
    ((retrieveRelevantChunks sqrtQ cfg query topK (.ok cands) graphFeatures
      embedRes).toOption.getD []).length = min topK cands.length := by
  rw [retrieve_ok_eq sqrtQ cfg query topK cands graphFeatures embedRes hq hc]
  simp [Except.toOption, List.length_take, sortByDesc_length, retrieveMerged_length]

/-! ## C7 — embedding-provider failure -/

/-- An empty query embedding yields a zero cosine similarity. -/
theorem cosineSimilarity_nil (sqrtQ : ℚ → ℚ) (v : List ℚ) :
    cosineSimilarity sqrtQ [] v = 0 := by
  simp [cosineSimilarity]

theorem scoreCandidate_embeddingScore_nil (sqrtQ : ℚ → ℚ) (cfg : RagConfig)
    (queryTokens : List Str) (tokenBoost : List (Str × ℚ)) (confidence : ℚ)
    (candidate : Candidate) :
    (scoreCandidate sqrtQ cfg queryTokens [] tokenBoost confidence
      candidate).embeddingScore = 0 := by
  simp [scoreCandidate, cosineSimilarity]

/-- Every fused result inherits its `embeddingScore` from some scored
candidate. -/
theorem fuseMerged_embeddingScore (cfg : RagConfig) (confidence : ℚ)
    (scored : List RetrievedChunk) {r : RetrievedChunk}
    (h : r ∈ fuseMerged cfg confidence scored) :
    ∃ s ∈ scored, r.embeddingScore = s.embeddingScore := by
  unfold fuseMerged at h
  rw [List.mem_map] at h
  obtain ⟨s, hs, hr⟩ := h
  exact ⟨s, hs, by rw [← hr]⟩

/-- **C7.**  If the embedding-provider call throws, retrieval still
returns a ranked result list (no exception escapes), that list is the
one computed with an empty query embedding — i.e. from the lexical
and graph signals only — and every returned item's `embeddingScore`
is 0. -/
theorem embedding_failure_degrades (sqrtQ : ℚ → ℚ) (cfg : RagConfig)
    (query : Str) (topK : Nat) (cands : List Candidate)
    (graphFeatures : List (Str × ℚ) × ℚ) (u : Unit)
    (hq : trimStr query ≠ []) (hc : cands ≠ []) :
    retrieveRelevantChunks sqrtQ cfg query topK (.ok cands) graphFeatures
        (.error u) =
      retrieveRelevantChunks sqrtQ cfg query topK (.ok cands) graphFeatures
        (.ok []) ∧
    ∃ l, retrieveRelevantChunks sqrtQ cfg query topK (.ok cands) graphFeatures
        (.error u) = .ok l ∧ ∀ r ∈ l, r.embeddingScore = 0 := by
  constructor
  · rfl
  · rw [retrieve_ok_eq sqrtQ cfg query topK cands graphFeatures (.error u) hq hc]
    refine ⟨_, rfl, ?_⟩
    intro r hr
    have hr' := mem_of_mem_sortByDesc (List.mem_of_mem_take hr)
    obtain ⟨s, hs, hscore⟩ := fuseMerged_embeddingScore cfg graphFeatures.2 _ hr'
    unfold retrieveScored at hs
    rw [List.mem_map] at hs
    obtain ⟨c, _, hcs⟩ := hs
    rw [hscore, ← hcs]
    exact scoreCandidate_embeddingScore_nil _ _ _ _ _ _

/-- Witness for C7: query `"ab"`, one candidate, provider throwing. -/
theorem embedding_failure_degrades_witness :
    (trimStr "ab".toList ≠ [] ∧ ([sampleCandidate] : List Candidate) ≠ []) ∧
      (retrieveRelevantChunks (fun _ => 2) sampleCfg "ab".toList 5
          (.ok [sampleCandidate]) ([("ab".toList, 1 / 2)], 1 / 2) (.error ()) =
        retrieveRelevantChunks (fun _ => 2) sampleCfg "ab".toList 5
          (.ok [sampleCandidate]) ([("ab".toList, 1 / 2)], 1 / 2) (.ok []) ∧
      ∃ l, retrieveRelevantChunks (fun _ => 2) sampleCfg "ab".toList 5
          (.ok [sampleCandidate]) ([("ab".toList, 1 / 2)], 1 / 2) (.error ()) =
        .ok l ∧ ∀ r ∈ l, r.embeddingScore = 0) :=
  ⟨⟨by decide, by decide⟩,
    embedding_failure_degrades _ _ _ _ _ _ _ (by decide) (by decide)⟩

/-! ## C8 — ranking and top-K truncation

`retrieveRelevantChunks` itself applies `slice(0, topK)` with no
20-cap; the cap is enforced only by the callers' zod validation
(`topK ≤ 20`) and by the configured default (`RAG_TOP_K ≤ 20`, default
6).  Calling the core function directly with a larger `topK` returns
more than 20 passages (see the counterexample). -/

/-- The stable descending sort is sorted by its key (descending). -/
theorem sortByDesc_sorted (key : RetrievedChunk → ℚ)
    (l : List RetrievedChunk) :
    (sortByDesc key l).Pairwise (fun a b => key b ≤ key a) := by
  unfold sortByDesc
  refine List.Pairwise.map _ ?_
    (List.sorted_insertionSort (lexRel key) l.enum)
  intro a b hab
  rcases hab with h | ⟨h, _⟩
  · exact le_of_lt h
  · exact le_of_eq h.symm

/-- The C8 contract as the code satisfies it: the result is exactly
the top `topK` of the stable descending final-score sort of the fused
candidates; it is sorted by final score descending; its length is
`min topK (#candidates)` (hence never exceeds `topK`); and a 20-cap
holds exactly when `topK ≤ 20` — in particular for every
boundary-validated `topK` and for the configured default. -/
def TopKContractHolds (sqrtQ : ℚ → ℚ) (cfg : RagConfig) (query : Str)
    (topK : Nat) (cands : List Candidate)
    (graphFeatures : List (Str × ℚ) × ℚ)
    (embedRes : Except Unit (List (List ℚ))) : Prop :=
  let res := (retrieveRelevantChunks sqrtQ cfg query topK (.ok cands)
    graphFeatures embedRes).toOption.getD []
  retrieveRelevantChunks sqrtQ cfg query topK (.ok cands) graphFeatures
      embedRes =
    .ok ((sortByDesc (fun r => r.score)
      (retrieveMerged sqrtQ cfg (trimStr query) (queryEmbeddingOf embedRes)
        graphFeatures cands)).take topK) ∧
  res.Pairwise (fun a b => b.score ≤ a.score) ∧
  res.length = min topK cands.length ∧
  res.length ≤ topK ∧
  (chatTopKValid topK → res.length ≤ 20) ∧
  ragTopKDefault ≤ 20

/-- **C8 (amended).**  The result is the candidates sorted by final
score descending, truncated to the caller-supplied `topK` (default
`RAG_TOP_K`); the returned count is `min topK (#candidates)` and so
never exceeds `topK`, and never exceeds 20 whenever `topK` passed the
HTTP boundary validation (or came from the configured default).  The
original claim's unconditional 20-cap fails: the core function caps
only at `topK` (see `retrieve_no_twenty_cap_counterexample`). -/
theorem retrieve_topk_contract (sqrtQ : ℚ → ℚ) (cfg : RagConfig)
    (query : Str) (topK : Nat) (cands : List Candidate)
    (graphFeatures : List (Str × ℚ) × ℚ)
    (embedRes : Except Unit (List (List ℚ)))
    (hq : trimStr query ≠ []) (hc : cands ≠ []) :
    TopKContractHolds sqrtQ cfg query topK cands graphFeatures embedRes := by
  have hok := retrieve_ok_eq sqrtQ cfg query topK cands graphFeatures embedRes hq hc
  have hlen := retrieve_length sqrtQ cfg query topK cands graphFeatures embedRes hq hc
  unfold TopKContractHolds
  refine ⟨hok, ?_, hlen, ?_, ?_, by norm_num [ragTopKDefault]⟩
  · rw [hok]
    exact ((sortByDesc_sorted (fun r => r.score) _).sublist
      (List.take_sublist _ _))
  · rw [hlen]
    exact Nat.min_le_left _ _
  · intro hvalid
    rw [hlen]
    exact le_trans (Nat.min_le_left _ _) hvalid.2

/-- Counterexample to C8 as stated: with 21 candidates and
`topK = 21`, the core retrieval returns 21 passages — more than
20. -/
theorem retrieve_no_twenty_cap_counterexample :
    20 < ((retrieveRelevantChunks (fun _ => 2) sampleCfg "ab".toList 21
      (.ok (List.replicate 21 sampleCandidate)) ([], 0)
      (.ok [])).toOption.getD []).length := by
  rw [retrieve_length (fun _ => 2) sampleCfg "ab".toList 21
    (List.replicate 21 sampleCandidate) ([], 0) (.ok [])
    (by decide) (by simp)]
  simp

/-- Witness for C8 (amended): query `"ab"`, one candidate,
`topK = 5`. -/
theorem retrieve_topk_contract_witness :
    (trimStr "ab".toList ≠ [] ∧ ([sampleCandidate] : List Candidate) ≠ []) ∧
      TopKContractHolds (fun _ => 2) sampleCfg "ab".toList 5 [sampleCandidate]
        ([("ab".toList, 1 / 2)], 1 / 2) (.ok [[1, 0]]) :=
  ⟨⟨by decide, by decide⟩,
    retrieve_topk_contract _ _ _ _ _ _ _ (by decide) (by decide)⟩

/-! ## C2 — reciprocal rank fusion -/

/-- Keys not bound by the rank map fall through to the base. -/
theorem rankFold_apply_of_notMem (items : List RetrievedChunk) (i : Nat)
    (m : Str → Option Nat) (x : Str) (hx : x ∉ items.map (fun r => r.id)) :
    rankFold items i m x = m x := by
  induction items generalizing i m with
  | nil => rfl
  | cons c rest ih =>
    simp only [List.map_cons, List.mem_cons, not_or] at hx
    rw [rankFold, ih _ _ hx.2, Function.update_noteq hx.1]

/-- With de-duplicated ids, the rank map sends the id of the element
at 0-based position `e` to `i + e + 1`. -/
theorem rankFold_apply (items : List RetrievedChunk) (i : Nat)
    (m : Str → Option Nat) (hnd : (items.map (fun r => r.id)).Nodup)
    (e : Nat) (he : e < items.length) :
    rankFold items i m (items[e].id) = some (i + e + 1) := by
  induction items generalizing i m e with
  | nil => simp at he
  | cons c rest ih =>
    rw [List.map_cons, List.nodup_cons] at hnd
    cases e with
    | zero =>
      rw [rankFold, rankFold_apply_of_notMem rest (i + 1) _ _
        (by simpa using hnd.1)]
      simp [Function.update]
    | succ e =>
      rw [rankFold]
      have := ih (i + 1) (Function.update m c.id (some (i + 1))) hnd.2 e
        (by simpa using he)
      simpa [Nat.add_assoc, Nat.add_comm, Nat.add_left_comm] using this

theorem buildRankMap_getElem (items : List RetrievedChunk)
    (hnd : (items.map (fun r => r.id)).Nodup) (e : Nat)
    (he : e < items.length) :
    buildRankMap items (items[e].id) = some (e + 1) := by
  unfold buildRankMap
  simpa using rankFold_apply items 0 _ hnd e he

/-- The stable descending sort is a permutation of its input. -/
theorem sortByDesc_perm (key : RetrievedChunk → ℚ)
    (l : List RetrievedChunk) : (sortByDesc key l).Perm l := by
  unfold sortByDesc
  have h1 := (List.perm_insertionSort (lexRel key) l.enum).map
    (fun p : Nat × RetrievedChunk => p.2)
  rw [List.enum_map_snd] at h1
  exact h1

theorem sortByDesc_ids_nodup (key : RetrievedChunk → ℚ)
    (l : List RetrievedChunk) (hnd : (l.map (fun r => r.id)).Nodup) :
    ((sortByDesc key l).map (fun r => r.id)).Nodup :=
  (((sortByDesc_perm key l).map (fun r => r.id)).nodup_iff).mpr hnd

/-- The C2 fusion formula: writing `pos + 1` for the candidate's
1-based position in each of the three stable descending sorts, its
fused entry carries `rrfScore = 1/(60+embRank) + 1/(60+lexRank) +
(1/(60+graphRank))·w` with `w = clamp(confidence·rrfWeight, 0, 1)`
gated to 0 below the confidence threshold, and
`finalScore = rawCombinedScore·0.82 + rrfScore·0.18`. -/
def FusionFormulaHolds (cfg : RagConfig) (confidence : ℚ)
    (scored : List RetrievedChunk) : Prop :=
  ∀ j (hj : j < scored.length) e l g
    (he : e < (sortByDesc (fun r => r.embeddingScore) scored).length)
    (hl : l < (sortByDesc (fun r => r.lexicalScore) scored).length)
    (hg : g < (sortByDesc (fun r => r.graphScore) scored).length),
    ((sortByDesc (fun r => r.embeddingScore) scored).get ⟨e, he⟩).id =
      (scored.get ⟨j, hj⟩).id →
    ((sortByDesc (fun r => r.lexicalScore) scored).get ⟨l, hl⟩).id =
      (scored.get ⟨j, hj⟩).id →
    ((sortByDesc (fun r => r.graphScore) scored).get ⟨g, hg⟩).id =
      (scored.get ⟨j, hj⟩).id →
    ∃ hj' : j < (fuseMerged cfg confidence scored).length,
      (fuseMerged cfg confidence scored).get ⟨j, hj'⟩ =
        { scored.get ⟨j, hj⟩ with
            rrfScore :=
              reciprocalRankFusion (e + 1) + reciprocalRankFusion (l + 1) +
                reciprocalRankFusion (g + 1) *
                  (if confidence < cfg.minConfidence then 0
                   else clamp (confidence * cfg.rrfWeight) 0 1)
            score := (scored.get ⟨j, hj⟩).score * 0.82 +
              (reciprocalRankFusion (e + 1) + reciprocalRankFusion (l + 1) +
                reciprocalRankFusion (g + 1) *
                  (if confidence < cfg.minConfidence then 0
                   else clamp (confidence * cfg.rrfWeight) 0 1)) * 0.18 }

/-- **C2.**  For every candidate of a fused candidate set with
distinct ids, the fused `rrfScore` and final score follow the RRF
formula of the claim, with the ranks being the 1-based positions in
the three stable descending sorts (the `?? 999` fallback never fires
since every candidate occurs in each sorted list). -/
theorem fusion_formula (cfg : RagConfig) (confidence : ℚ)
    (scored : List RetrievedChunk)
    (hnd : (scored.map (fun r => r.id)).Nodup) :
    FusionFormulaHolds cfg confidence scored := by
  intro j hj e l g he hl hg hide hidl hidg
  refine ⟨by rw [fuseMerged_length]; exact hj, ?_⟩
  have hre : buildRankMap (sortByDesc (fun r => r.embeddingScore) scored)
      ((scored.get ⟨j, hj⟩).id) = some (e + 1) := by
    rw [← hide]
    exact buildRankMap_getElem _ (sortByDesc_ids_nodup _ _ hnd) e he
  have hrl : buildRankMap (sortByDesc (fun r => r.lexicalScore) scored)
      ((scored.get ⟨j, hj⟩).id) = some (l + 1) := by
    rw [← hidl]
    exact buildRankMap_getElem _ (sortByDesc_ids_nodup _ _ hnd) l hl
  have hrg : buildRankMap (sortByDesc (fun r => r.graphScore) scored)
      ((scored.get ⟨j, hj⟩).id) = some (g + 1) := by
    rw [← hidg]
    exact buildRankMap_getElem _ (sortByDesc_ids_nodup _ _ hnd) g hg
  simp only [List.get_eq_getElem] at hre hrl hrg
  show (fuseMerged cfg confidence scored).get ⟨j, _⟩ = _
  simp only [fuseMerged, List.get_eq_getElem, List.getElem_map, hre, hrl, hrg,
    Option.getD_some]

/-- Two concrete scored candidates with distinct ids. -/
def sampleScored : List RetrievedChunk :=
  [{ id := "a".toList, sourceId := "s1".toList, sourceTitle := "doc".toList
     sourcePath := none, sectionTitle := none, chunkIndex := 0
     text := "xy".toList, score := 1 / 2, embeddingScore := 1 / 4
     lexicalScore := 1 / 2, graphScore := 1 / 8, rrfScore := 0 },
   { id := "b".toList, sourceId := "s1".toList, sourceTitle := "doc".toList
     sourcePath := none, sectionTitle := none, chunkIndex := 1
     text := "xy".toList, score := 1 / 3, embeddingScore := 1 / 5
     lexicalScore := 1 / 3, graphScore := 1 / 9, rrfScore := 0 }]

/-- Witness for C2 on a two-candidate scored list. -/
theorem fusion_formula_witness :
    (sampleScored.map (fun r => r.id)).Nodup ∧
      FusionFormulaHolds sampleCfg (1 / 2) sampleScored :=
  ⟨by decide, fusion_formula _ _ _ (by decide)⟩

/-! ## C9 — determinism and stable tie-break -/

/-- Scoring preserves candidate ids in order. -/
theorem retrieveScored_ids (sqrtQ : ℚ → ℚ) (cfg : RagConfig) (queryText : Str)
    (queryEmbedding : List ℚ) (graphFeatures : List (Str × ℚ) × ℚ)
    (candidates : List Candidate) :
    (retrieveScored sqrtQ cfg queryText queryEmbedding graphFeatures
        candidates).map (fun r => r.id) =
      candidates.map (fun c => c.id) := by
  unfold retrieveScored
  rw [List.map_map]
  exact List.map_congr_left (fun c _ => rfl)

/-- Fusion preserves ids in order. -/
theorem fuseMerged_ids (cfg : RagConfig) (confidence : ℚ)
    (scored : List RetrievedChunk) :
    (fuseMerged cfg confidence scored).map (fun r => r.id) =
      scored.map (fun r => r.id) := by
  unfold fuseMerged
  rw [List.map_map]
  exact List.map_congr_left (fun r _ => rfl)

theorem retrieveMerged_ids (sqrtQ : ℚ → ℚ) (cfg : RagConfig) (queryText : Str)
    (queryEmbedding : List ℚ) (graphFeatures : List (Str × ℚ) × ℚ)
    (candidates : List Candidate) :
    (retrieveMerged sqrtQ cfg queryText queryEmbedding graphFeatures
        candidates).map (fun r => r.id) =
      candidates.map (fun c => c.id) := by
  unfold retrieveMerged
  rw [fuseMerged_ids, retrieveScored_ids]

/-- Stability of the descending sort: entries with exactly equal keys
keep their input order, located through their (unique) ids. -/
theorem sortByDesc_stable (key : RetrievedChunk → ℚ)
    (l : List RetrievedChunk) (hnd : (l.map (fun r => r.id)).Nodup)
    {i j p q : Nat} (hi : i < l.length) (hj : j < l.length) (hij : i < j)
    (hkey : key (l.get ⟨i, hi⟩) = key (l.get ⟨j, hj⟩))
    (hp : p < (sortByDesc key l).length) (hq : q < (sortByDesc key l).length)
    (hpid : ((sortByDesc key l).get ⟨p, hp⟩).id = (l.get ⟨i, hi⟩).id)
    (hqid : ((sortByDesc key l).get ⟨q, hq⟩).id = (l.get ⟨j, hj⟩).id) :
    p < q := by
  simp only [List.get_eq_getElem] at hkey hpid hqid
  have hpM : p < (List.insertionSort (lexRel key) l.enum).length := by
    rw [List.length_insertionSort, List.enum_length]
    rw [sortByDesc_length] at hp
    exact hp
  have hqM : q < (List.insertionSort (lexRel key) l.enum).length := by
    rw [List.length_insertionSort, List.enum_length]
    rw [sortByDesc_length] at hq
    exact hq
  have hgetp : (sortByDesc key l)[p] =
      ((List.insertionSort (lexRel key) l.enum)[p]).2 := by
    unfold sortByDesc
    exact List.getElem_map _
  have hgetq : (sortByDesc key l)[q] =
      ((List.insertionSort (lexRel key) l.enum)[q]).2 := by
    unfold sortByDesc
    exact List.getElem_map _
  -- Characterize the sorted entry at a position through the id.
  have hchar : ∀ (t : Nat) (htM : t < (List.insertionSort (lexRel key) l.enum).length)
      (w : Nat) (hw : w < l.length),
      (((List.insertionSort (lexRel key) l.enum)[t]).2).id = (l[w]).id →
      (List.insertionSort (lexRel key) l.enum)[t] = (w, l[w]) := by
    intro t htM w hw hid
    have hmem : (List.insertionSort (lexRel key) l.enum)[t] ∈ l.enum :=
      (List.perm_insertionSort (lexRel key) l.enum).mem_iff.mp
        (List.getElem_mem htM)
    have hmem' : (((List.insertionSort (lexRel key) l.enum)[t]).1,
        ((List.insertionSort (lexRel key) l.enum)[t]).2) ∈ l.enum := by
      rwa [Prod.mk.eta]
    obtain ⟨hk, hx⟩ := List.mem_enum hmem'
    have hidx : l[((List.insertionSort (lexRel key) l.enum)[t]).1].id =
        l[w].id := by
      rw [← hx]
      exact hid
    have hkm : ((List.insertionSort (lexRel key) l.enum)[t]).1 <
        (l.map (fun r => r.id)).length := by
      rw [List.length_map]; exact hk
    have hwm : w < (l.map (fun r => r.id)).length := by
      rw [List.length_map]; exact hw
    have hmapeq : (l.map (fun r => r.id))[((List.insertionSort (lexRel key)
        l.enum)[t]).1] =
        (l.map (fun r => r.id))[w] := by
      rw [List.getElem_map, List.getElem_map]
      exact hidx
    have hfst : ((List.insertionSort (lexRel key) l.enum)[t]).1 = w :=
      hnd.getElem_inj_iff.mp hmapeq
    subst hfst
    exact Prod.ext_iff.mpr ⟨rfl, hx⟩
  have hcp := hchar p hpM i hi (by rw [← hgetp]; exact hpid)
  have hcq := hchar q hqM j hj (by rw [← hgetq]; exact hqid)
  by_contra hple
  push_neg at hple
  rcases Nat.eq_or_lt_of_le hple with heq | hlt
  · -- `q = p` forces `i = j`.
    subst heq
    rw [hcp] at hcq
    have : i = j := (Prod.mk.injEq _ _ _ _ ▸ hcq).1
    omega
  · -- `q < p` contradicts sortedness.
    have hsorted : (List.insertionSort (lexRel key) l.enum).Pairwise
        (lexRel key) :=
      List.sorted_insertionSort (lexRel key) l.enum
    have hrel := List.pairwise_iff_getElem.mp hsorted q p hqM hpM hlt
    rw [hcp, hcq] at hrel
    rcases hrel with hlt' | ⟨heq', hle'⟩
    · simp only at hlt'
      rw [hkey] at hlt'
      exact absurd hlt' (lt_irrefl _)
    · simp only at hle'
      omega

/-- The C9 property: fixing every collaborator outcome, retrieval is a
pure function of its inputs (two calls on equal inputs agree), and
candidates whose final scores tie exactly appear in the returned list
in their original fetch order. -/
def DeterminismAndTieBreakHolds (sqrtQ : ℚ → ℚ) (cfg : RagConfig)
    (query : Str) (topK : Nat) (cands : List Candidate)
    (graphFeatures : List (Str × ℚ) × ℚ)
    (embedRes : Except Unit (List (List ℚ))) (i j : Nat) : Prop :=
  (∀ (query₂ : Str) (topK₂ : Nat) (cands₂ : List Candidate)
      (graphFeatures₂ : List (Str × ℚ) × ℚ)
      (embedRes₂ : Except Unit (List (List ℚ))),
    query₂ = query → topK₂ = topK → cands₂ = cands →
    graphFeatures₂ = graphFeatures → embedRes₂ = embedRes →
    retrieveRelevantChunks sqrtQ cfg query₂ topK₂ (.ok cands₂) graphFeatures₂
        embedRes₂ =
      retrieveRelevantChunks sqrtQ cfg query topK (.ok cands) graphFeatures
        embedRes) ∧
  (∀ out, retrieveRelevantChunks sqrtQ cfg query topK (.ok cands)
      graphFeatures embedRes = .ok out →
    ∀ p q (hp : p < out.length) (hq : q < out.length)
      (hi : i < cands.length) (hj : j < cands.length),
      (out.get ⟨p, hp⟩).id = (cands.get ⟨i, hi⟩).id →
      (out.get ⟨q, hq⟩).id = (cands.get ⟨j, hj⟩).id →
      p < q)

/-- **C9.**  For a fixed passage-store state and graph content (i.e.
fixed collaborator outcomes), retrieval is deterministic in
(query, context, topK); and when the fused final scores of the
candidates at fetch positions `i < j` are exactly equal, their entries
appear in the result in fetch order (stable tie-break). -/
theorem retrieval_deterministic_and_stable (sqrtQ : ℚ → ℚ) (cfg : RagConfig)
    (query : Str) (topK : Nat) (cands : List Candidate)
    (graphFeatures : List (Str × ℚ) × ℚ)
    (embedRes : Except Unit (List (List ℚ)))
    (hnd : (cands.map (fun c => c.id)).Nodup)
    (i j : Nat) (hij : i < j) (hjlen : j < cands.length)
    (hscore : ∀ (hi' : i < (retrieveMerged sqrtQ cfg (trimStr query)
        (queryEmbeddingOf embedRes) graphFeatures cands).length)
      (hj' : j < (retrieveMerged sqrtQ cfg (trimStr query)
        (queryEmbeddingOf embedRes) graphFeatures cands).length),
      ((retrieveMerged sqrtQ cfg (trimStr query) (queryEmbeddingOf embedRes)
        graphFeatures cands).get ⟨i, hi'⟩).score =
      ((retrieveMerged sqrtQ cfg (trimStr query) (queryEmbeddingOf embedRes)
        graphFeatures cands).get ⟨j, hj'⟩).score) :
    DeterminismAndTieBreakHolds sqrtQ cfg query topK cands graphFeatures
      embedRes i j := by
  constructor
  · intro query₂ topK₂ cands₂ graphFeatures₂ embedRes₂ h1 h2 h3 h4 h5
    rw [h1, h2, h3, h4, h5]
  · intro out hout p q hp hq hi hj hpid hqid
    -- The blank-query and empty-candidate early returns contradict a
    -- non-trivial `out` position, so the main branch applies.
    by_cases hquery : trimStr query = []
    · rw [retrieveRelevantChunks] at hout
      rw [if_pos hquery] at hout
      cases hout
      exact absurd hp (by simp)
    · have hcne : cands ≠ [] := by
        intro hnil
        rw [hnil] at hjlen
        simp at hjlen
      rw [retrieve_ok_eq sqrtQ cfg query topK cands graphFeatures embedRes
        hquery hcne] at hout
      cases hout
      set merged := retrieveMerged sqrtQ cfg (trimStr query)
        (queryEmbeddingOf embedRes) graphFeatures cands with hmerged
      have hmlen : merged.length = cands.length := by
        rw [hmerged, retrieveMerged_length]
      have hmids : merged.map (fun r => r.id) = cands.map (fun c => c.id) := by
        rw [hmerged, retrieveMerged_ids]
      have hmergednd : (merged.map (fun r => r.id)).Nodup := by
        rw [hmids]; exact hnd
      have hi' : i < merged.length := by omega
      have hj' : j < merged.length := by omega
      have hidm : ∀ (w : Nat) (hw : w < merged.length) (hw' : w < cands.length),
          (merged[w]).id = (cands[w]).id := by
        intro w hw hw'
        have := congrArg (fun t => t[w]?) hmids
        simp only [List.getElem?_map] at this
        have h1 := List.getElem?_eq_getElem hw
        have h2 := List.getElem?_eq_getElem hw'
        rw [h1, h2] at this
        simpa using this
      have hp' : p < (sortByDesc (fun r => r.score) merged).length := by
        rw [List.length_take] at hp
        omega
      have hq' : q < (sortByDesc (fun r => r.score) merged).length := by
        rw [List.length_take] at hq
        omega
      refine sortByDesc_stable (fun r => r.score) merged hmergednd hi' hj' hij
        (hscore hi' hj') hp' hq' ?_ ?_
      · show ((sortByDesc (fun r => r.score) merged).get ⟨p, hp'⟩).id =
          (merged.get ⟨i, hi'⟩).id
        have h1 : ((sortByDesc (fun r => r.score) merged).get ⟨p, hp'⟩) =
            ((List.take topK (sortByDesc (fun r => r.score) merged)).get
              ⟨p, hp⟩) := by
          simp only [List.get_eq_getElem]
          exact (List.getElem_take _).symm
        rw [h1, hpid]
        show (cands.get ⟨i, hi⟩).id = (merged.get ⟨i, hi'⟩).id
        simp only [List.get_eq_getElem]
        exact (hidm i hi' hi).symm
      · show ((sortByDesc (fun r => r.score) merged).get ⟨q, hq'⟩).id =
          (merged.get ⟨j, hj'⟩).id
        have h1 : ((sortByDesc (fun r => r.score) merged).get ⟨q, hq'⟩) =
            ((List.take topK (sortByDesc (fun r => r.score) merged)).get
              ⟨q, hq⟩) := by
          simp only [List.get_eq_getElem]
          exact (List.getElem_take _).symm
        rw [h1, hqid]
        show (cands.get ⟨j, hj⟩).id = (merged.get ⟨j, hj'⟩).id
        simp only [List.get_eq_getElem]
        exact (hidm j hj' hj).symm

/-- A square-root oracle for the exact-tie witness instance. -/
def tieSqrt : ℚ → ℚ := fun q => if q = 16 then 5 else 1

/-- First candidate of the exact-tie witness instance. -/
def tieCandidateA : Candidate :=
  { id := "a".toList, sourceId := "s1".toList, sourceTitle := "doc".toList
    sourcePath := none, sectionTitle := none, chunkIndex := 0
    text := "zz".toList, embedding := some [1]
    keywords := some ["ab".toList] }

/-- Second candidate of the exact-tie witness instance; its weaker
embedding similarity is exactly offset by its stronger graph boost,
so both candidates end with the same final score. -/
def tieCandidateB : Candidate :=
  { id := "b".toList, sourceId := "s1".toList, sourceTitle := "doc".toList
    sourcePath := none, sectionTitle := none, chunkIndex := 1
    text := "zz".toList, embedding := some [4]
    keywords := some ["ab".toList, "cd".toList] }

/-- Graph features of the exact-tie witness instance. -/
def tieGraphFeatures : List (Str × ℚ) × ℚ :=
  ([("ab".toList, 1 / 10), ("cd".toList, 523728 / 387655)], 1 / 2)

/-- In the tie instance both fused final scores are exactly equal. -/
theorem tie_scores_equal :
    ((retrieveMerged tieSqrt sampleCfg (trimStr "ab".toList)
      (queryEmbeddingOf (.ok [[1]])) tieGraphFeatures
      [tieCandidateA, tieCandidateB]).get ⟨0, by decide⟩).score =
    ((retrieveMerged tieSqrt sampleCfg (trimStr "ab".toList)
      (queryEmbeddingOf (.ok [[1]])) tieGraphFeatures
      [tieCandidateA, tieCandidateB]).get ⟨1, by decide⟩).score := by
  decide

/-! ## Personalized PageRank: pointwise lemmas -/

theorem seedsGet_nil (x : Str) : seedsGet [] x = 0 := rfl

theorem seedsGet_cons (k : Str) (v : ℚ) (rest : List (Str × ℚ)) (x : Str) :
    seedsGet ((k, v) :: rest) x = if k = x then v else seedsGet rest x := by
  by_cases h : k = x
  · unfold seedsGet
    rw [List.find?_cons_of_pos _ (by simpa using h), if_pos h]
    rfl
  · unfold seedsGet
    rw [List.find?_cons_of_neg _ (by simpa using h), if_neg h]

theorem seedsGet_nonneg {seeds : List (Str × ℚ)}
    (h : ∀ p ∈ seeds, 0 ≤ p.2) (x : Str) : 0 ≤ seedsGet seeds x := by
  unfold seedsGet
  cases hf : seeds.find? (fun p => p.1 == x) with
  | none => simp
  | some p => exact h p (List.mem_of_find?_eq_some hf)

theorem seedsGet_eq_zero_of_not_mem {seeds : List (Str × ℚ)} {x : Str}
    (h : x ∉ seeds.map (fun p => p.1)) : seedsGet seeds x = 0 := by
  induction seeds with
  | nil => rfl
  | cons p rest ih =>
    simp only [List.map_cons, List.mem_cons, not_or] at h
    rw [show p = (p.1, p.2) from rfl, seedsGet_cons,
      if_neg (fun hc => h.1 hc.symm), ih h.2]

theorem seedNormOf_pos {seeds : List (Str × ℚ)}
    (h : ∀ p ∈ seeds, 0 ≤ p.2) : 0 < seedNormOf seeds := by
  unfold seedNormOf
  split
  · norm_num
  · rename_i hs
    rcases lt_or_eq_of_le (List.sum_nonneg (by
      intro v hv
      rw [List.mem_map] at hv
      obtain ⟨p, hp, hpv⟩ := hv
      rw [← hpv]
      exact h p hp)) with hlt | heq
    · exact hlt
    · exact absurd heq.symm hs

theorem addAt_apply_same (f : Str → ℚ) (y : Str) (q : ℚ) :
    addAt f y q y = f y + q := by
  simp [addAt]

theorem addAt_apply_ne (f : Str → ℚ) {y x : Str} (q : ℚ) (h : x ≠ y) :
    addAt f y q x = f x := by
  simp [addAt, Function.update_noteq h]

theorem addAt_nonneg {f : Str → ℚ} (hf : ∀ x, 0 ≤ f x) {q : ℚ} (hq : 0 ≤ q)
    (y x : Str) : 0 ≤ addAt f y q x := by
  unfold addAt
  rw [Function.update_apply]
  split
  · exact add_nonneg (hf y) hq
  · exact hf x

/-- Non-negativity passes through a `foldl` of keyed updates with
non-negative values. -/
theorem foldl_update_nonneg (ns : List GNode) (v : GNode → ℚ)
    (f : Str → ℚ) (hf : ∀ x, 0 ≤ f x) (hv : ∀ n ∈ ns, 0 ≤ v n) :
    ∀ x, 0 ≤ (ns.foldl (fun sc n => Function.update sc n.id (v n)) f) x := by
  induction ns generalizing f with
  | nil => exact hf
  | cons n rest ih =>
    intro x
    rw [List.foldl_cons]
    refine ih _ ?_ (fun m hm => hv m (List.mem_cons_of_mem _ hm)) x
    intro y
    rw [Function.update_apply]
    split
    · exact hv n (List.mem_cons_self _ _)
    · exact hf y

/-- Keys outside the update fold fall through to the base map. -/
theorem foldl_update_apply_notMem (ns : List GNode) (v : GNode → ℚ)
    (f : Str → ℚ) {x : Str} (hx : x ∉ ns.map (fun n => n.id)) :
    (ns.foldl (fun sc n => Function.update sc n.id (v n)) f) x = f x := by
  induction ns generalizing f with
  | nil => rfl
  | cons n rest ih =>
    simp only [List.map_cons, List.mem_cons, not_or] at hx
    rw [List.foldl_cons, ih _ hx.2, Function.update_noteq hx.1]

/-- With de-duplicated ids, the update fold assigns every listed node
its value. -/
theorem foldl_update_apply_mem (ns : List GNode) (v : GNode → ℚ)
    (hnd : (ns.map (fun n => n.id)).Nodup) (f : Str → ℚ) {n : GNode}
    (hn : n ∈ ns) :
    (ns.foldl (fun sc m => Function.update sc m.id (v m)) f) n.id = v n := by
  induction ns generalizing f with
  | nil => simp at hn
  | cons m rest ih =>
    rw [List.map_cons, List.nodup_cons] at hnd
    rw [List.foldl_cons]
    rcases List.mem_cons.mp hn with heq | hmem
    · subst heq
      rw [foldl_update_apply_notMem rest v _ (by simpa using hnd.1)]
      simp [Function.update_apply]
    · exact ih hnd.2 _ hmem

/-- The initial PPR scores are non-negative. -/
theorem pprInit_nonneg (graph : GraphRT) (seeds : List (Str × ℚ))
    (hseeds : ∀ p ∈ seeds, 0 ≤ p.2) :
    ∀ x, 0 ≤ pprInit graph seeds x := by
  unfold pprInit
  refine foldl_update_nonneg _ _ _ (fun _ => le_refl 0) ?_
  intro n _
  exact div_nonneg (seedsGet_nonneg hseeds n.id) (le_of_lt (seedNormOf_pos hseeds))

/-- Edge weights at least `0.01` have a positive sum on a non-empty
edge list. -/
theorem edgeWeightSum_pos {es : List (Str × ℚ)}
    (hw : ∀ e ∈ es, (1 : ℚ) / 100 ≤ e.2) (hne : es ≠ []) :
    0 < (es.map (fun e => e.2)).sum := by
  cases es with
  | nil => exact absurd rfl hne
  | cons e rest =>
    rw [List.map_cons, List.sum_cons]
    have h1 : (1 : ℚ) / 100 ≤ e.2 := hw e (List.mem_cons_self _ _)
    have h2 : 0 ≤ (rest.map (fun e => e.2)).sum := by
      refine List.sum_nonneg ?_
      intro v hv
      rw [List.mem_map] at hv
      obtain ⟨e', he', hev⟩ := hv
      rw [← hev]
      exact le_trans (by norm_num) (hw e' (List.mem_cons_of_mem _ he'))
    linarith

/-- Non-negativity passes through the per-edge distribution fold. -/
theorem edgeFold_nonneg (es : List (Str × ℚ)) (amount : Str × ℚ → ℚ)
    (f : Str → ℚ) (hf : ∀ x, 0 ≤ f x) (ham : ∀ e ∈ es, 0 ≤ amount e) :
    ∀ x, 0 ≤ (es.foldl (fun nx e => addAt nx e.1 (amount e)) f) x := by
  induction es generalizing f with
  | nil => exact hf
  | cons e rest ih =>
    rw [List.foldl_cons]
    exact ih _ (addAt_nonneg hf (ham e (List.mem_cons_self _ _)) e.1)
      (fun e' he' => ham e' (List.mem_cons_of_mem _ he'))

/-- One node's distribution pass preserves non-negativity. -/
theorem pprNodePass_nonneg (graph : GraphRT) (alpha : ℚ) (scores : Str → ℚ)
    (hw : ∀ id, ∀ e ∈ graph.adj id, (1 : ℚ) / 100 ≤ e.2)
    (halpha0 : 0 ≤ alpha) (hs : ∀ x, 0 ≤ scores x)
    (nx : Str → ℚ) (hnx : ∀ x, 0 ≤ nx x) (n : GNode) :
    ∀ x, 0 ≤ pprNodePass graph alpha scores nx n x := by
  unfold pprNodePass
  by_cases hout : graph.adj n.id = []
  · rw [if_pos hout]
    exact addAt_nonneg hnx (mul_nonneg halpha0 (hs n.id)) n.id
  · rw [if_neg hout]
    refine edgeFold_nonneg _ _ _ hnx ?_
    intro e he
    refine mul_nonneg (mul_nonneg halpha0 (hs n.id)) ?_
    refine div_nonneg (le_trans (by norm_num) (hw n.id e he)) ?_
    unfold weightSumOf
    split
    · norm_num
    · exact le_of_lt (edgeWeightSum_pos (hw n.id) hout)

/-- The distribution fold preserves non-negativity. -/
theorem pprDistribFold_nonneg (graph : GraphRT) (alpha : ℚ)
    (scores : Str → ℚ)
    (hw : ∀ id, ∀ e ∈ graph.adj id, (1 : ℚ) / 100 ≤ e.2)
    (halpha0 : 0 ≤ alpha) (hs : ∀ x, 0 ≤ scores x)
    (ns : List GNode) (nx : Str → ℚ) (hnx : ∀ x, 0 ≤ nx x) :
    ∀ x, 0 ≤ (ns.foldl (pprNodePass graph alpha scores) nx) x := by
  induction ns generalizing nx with
  | nil => exact hnx
  | cons n rest ih =>
    rw [List.foldl_cons]
    exact ih _ (pprNodePass_nonneg graph alpha scores hw halpha0 hs nx hnx n)

/-- One personalized-PageRank power iteration preserves
non-negativity of the score map. -/
theorem pprStep_nonneg (graph : GraphRT) (seeds : List (Str × ℚ))
    (alpha : ℚ) (scores : Str → ℚ)
    (hw : ∀ id, ∀ e ∈ graph.adj id, (1 : ℚ) / 100 ≤ e.2)
    (hseeds : ∀ p ∈ seeds, 0 ≤ p.2)
    (halpha0 : 0 ≤ alpha) (halpha1 : alpha ≤ 1)
    (hs : ∀ x, 0 ≤ scores x) :
    ∀ x, 0 ≤ pprStep graph seeds alpha scores x := by
  unfold pprStep
  refine pprDistribFold_nonneg graph alpha scores hw halpha0 hs _ _ ?_
  refine foldl_update_nonneg _ _ _ (fun _ => le_refl 0) ?_
  intro n _
  refine mul_nonneg (by linarith) ?_
  exact div_nonneg (seedsGet_nonneg hseeds n.id)
    (le_of_lt (seedNormOf_pos hseeds))

/-- All iterates of the power iteration stay non-negative. -/
theorem pprIterate_nonneg (graph : GraphRT) (seeds : List (Str × ℚ))
    (alpha : ℚ)
    (hw : ∀ id, ∀ e ∈ graph.adj id, (1 : ℚ) / 100 ≤ e.2)
    (hseeds : ∀ p ∈ seeds, 0 ≤ p.2)
    (halpha0 : 0 ≤ alpha) (halpha1 : alpha ≤ 1) (k : Nat) :
    ∀ x, 0 ≤ (pprStep graph seeds alpha)^[k] (pprInit graph seeds) x := by
  induction k with
  | zero => exact pprInit_nonneg graph seeds hseeds
  | succ k ih =>
    rw [Function.iterate_succ_apply']
    exact pprStep_nonneg graph seeds alpha _ hw hseeds halpha0 halpha1 ih

/-- The loop runs the step function some number of times bounded by
the fuel, stopping as soon as the within-iteration delta drops below
`1e-6`. -/
theorem pprLoop_spec (graph : GraphRT) (seeds : List (Str × ℚ)) (alpha : ℚ)
    (fuel : Nat) (s : Str → ℚ) :
    ∃ k, k ≤ fuel ∧
      pprLoop graph seeds alpha fuel s = (pprStep graph seeds alpha)^[k] s ∧
      (1 ≤ fuel → 1 ≤ k) ∧
      (∀ m, m + 1 < k →
        ¬ pprDelta graph ((pprStep graph seeds alpha)^[m] s)
          ((pprStep graph seeds alpha)^[m + 1] s) < 1 / 1000000) ∧
      (k < fuel →
        pprDelta graph ((pprStep graph seeds alpha)^[k - 1] s)
          ((pprStep graph seeds alpha)^[k] s) < 1 / 1000000) := by
  induction fuel generalizing s with
  | zero =>
    refine ⟨0, le_refl 0, rfl, by omega, by omega, by omega⟩
  | succ fuel ih =>
    rw [pprLoop]
    by_cases hd : pprDelta graph s (pprStep graph seeds alpha s) < 1 / 1000000
    · refine ⟨1, by omega, ?_, by omega, by omega, ?_⟩
      · rw [if_pos hd]
        rfl
      · intro _
        have h0 : (pprStep graph seeds alpha)^[1 - 1] s = s := rfl
        have h1 : (pprStep graph seeds alpha)^[1] s =
            pprStep graph seeds alpha s := by
          rw [Function.iterate_one]
        rw [h0, h1]
        exact hd
    · rw [if_neg hd]
      obtain ⟨k', hk'le, hk'eq, hk'one, hk'no, hk'stop⟩ :=
        ih (pprStep graph seeds alpha s)
      refine ⟨k' + 1, by omega, ?_, by omega, ?_, ?_⟩
      · rw [hk'eq, ← Function.iterate_succ_apply]
      · intro m hm
        cases m with
        | zero =>
          have h0 : (pprStep graph seeds alpha)^[0] s = s := rfl
          have h1 : (pprStep graph seeds alpha)^[0 + 1] s =
              pprStep graph seeds alpha s := by
            rw [Function.iterate_one]
          rw [h0, h1]
          exact hd
        | succ m =>
          have := hk'no m (by omega)
          rw [Function.iterate_succ_apply, Function.iterate_succ_apply]
          exact this
      · intro hlt
        have hk1 : k' + 1 - 1 = k' := by omega
        rw [hk1]
        cases k' with
        | zero =>
          rcases Nat.eq_zero_or_pos fuel with hf | hf
          · omega
          · have := hk'one hf
            omega
        | succ k'' =>
          have := hk'stop (by omega)
          have h2 : k'' + 1 - 1 = k'' := by omega
          rw [h2] at this
          rw [Function.iterate_succ_apply, Function.iterate_succ_apply]
          exact this

/-- The C3 contract: every returned score is non-negative, and on a
non-empty graph the run equals `k ≤ 30` power iterations from the
initial seed-proportional scores, where the loop never continued past
a sub-`1e-6` delta and, when it stopped before exhausting the budget,
the final delta was below `1e-6`. -/
def PPRBoundedIterationHolds (graph : GraphRT) (seeds : List (Str × ℚ))
    (alpha : ℚ) : Prop :=
  (∀ x, 0 ≤ runPersonalizedPageRank graph seeds alpha 30 x) ∧
  (graph.nodes ≠ [] →
    ∃ k, k ≤ 30 ∧ 1 ≤ k ∧
      runPersonalizedPageRank graph seeds alpha 30 =
        (pprStep graph seeds alpha)^[k] (pprInit graph seeds) ∧
      (∀ m, m + 1 < k →
        ¬ pprDelta graph
          ((pprStep graph seeds alpha)^[m] (pprInit graph seeds))
          ((pprStep graph seeds alpha)^[m + 1] (pprInit graph seeds)) <
            1 / 1000000) ∧
      (k < 30 →
        pprDelta graph
          ((pprStep graph seeds alpha)^[k - 1] (pprInit graph seeds))
          ((pprStep graph seeds alpha)^[k] (pprInit graph seeds)) <
            1 / 1000000))

/-- **C3.**  For every loaded graph (edge weights clamped to
`[0.01, 10]`, edges only between existing nodes) and every non-empty
seed map with non-negative weights, `runPersonalizedPageRank` with a
restart probability in the configured domain `[0.5, 0.99]` returns a
non-negative score for every node, and its power iteration performs
at most 30 iterations, stopping as soon as the total absolute change
across all node scores within one iteration drops below `1e-6`. -/
theorem ppr_nonneg_and_bounded (graph : GraphRT) (seeds : List (Str × ℚ))
    (alpha : ℚ)
    (hw : ∀ id, ∀ e ∈ graph.adj id,
      (1 : ℚ) / 100 ≤ e.2 ∧ e.2 ≤ 10)
    (htargets : ∀ id, ∀ e ∈ graph.adj id, e.1 ∈ graph.nodes.map (fun n => n.id))
    (hseeds : ∀ p ∈ seeds, 0 ≤ p.2) (hne : seeds ≠ [])
    (halpha : 1 / 2 ≤ alpha ∧ alpha ≤ 99 / 100) :
    PPRBoundedIterationHolds graph seeds alpha := by
  have hw' : ∀ id, ∀ e ∈ graph.adj id, (1 : ℚ) / 100 ≤ e.2 :=
    fun id e he => (hw id e he).1
  constructor
  · intro x
    unfold runPersonalizedPageRank
    split
    · norm_num
    · rename_i hcase
      push_neg at hcase
      obtain ⟨k, _, hkeq, _, _⟩ := pprLoop_spec graph seeds alpha 30
        (pprInit graph seeds)
      rw [hkeq]
      exact pprIterate_nonneg graph seeds alpha hw' hseeds
        (by linarith [halpha.1]) (by linarith [halpha.2]) k x
  · intro hnodes
    obtain ⟨k, hkle, hkeq, hk1, hkno, hkstop⟩ := pprLoop_spec graph seeds
      alpha 30 (pprInit graph seeds)
    refine ⟨k, hkle, hk1 (by omega), ?_, hkno, hkstop⟩
    unfold runPersonalizedPageRank
    rw [if_neg (by
      push_neg
      exact ⟨hnodes, hne⟩)]
    exact hkeq

/-- A one-node graph with no edges for the PPR witnesses. -/
def pprWitnessGraph : GraphRT :=
  { nodes := [{ id := "a".toList, label := "x".toList }]
    adj := fun _ => []
    tokenToNodeIds := fun _ => [] }

/-- Witness for C3 on the one-node graph with seed weight 1 and
`alpha = 0.85`. -/
theorem ppr_nonneg_and_bounded_witness :
    ((∀ id, ∀ e ∈ pprWitnessGraph.adj id,
        (1 : ℚ) / 100 ≤ e.2 ∧ e.2 ≤ 10) ∧
      (∀ id, ∀ e ∈ pprWitnessGraph.adj id,
        e.1 ∈ pprWitnessGraph.nodes.map (fun n => n.id)) ∧
      (∀ p ∈ ([("a".toList, (1 : ℚ))] : List (Str × ℚ)), 0 ≤ p.2) ∧
      ([("a".toList, (1 : ℚ))] : List (Str × ℚ)) ≠ [] ∧
      ((1 : ℚ) / 2 ≤ 17 / 20 ∧ (17 : ℚ) / 20 ≤ 99 / 100)) ∧
      PPRBoundedIterationHolds pprWitnessGraph [("a".toList, 1)] (17 / 20) :=
  ⟨⟨fun _ e he => absurd he (by simp [pprWitnessGraph]),
    fun _ e he => absurd he (by simp [pprWitnessGraph]),
    by decide, by decide, by norm_num⟩,
    ppr_nonneg_and_bounded _ _ _
      (fun _ e he => absurd he (by simp [pprWitnessGraph]))
      (fun _ e he => absurd he (by simp [pprWitnessGraph]))
      (by decide) (by decide) (by norm_num)⟩

/-! ## Personalized PageRank: mass conservation (C10) -/

theorem sum_map_const_mul {α : Type} (l : List α) (t : α → ℚ) (c : ℚ) :
    (l.map (fun x => c * t x)).sum = c * (l.map t).sum := by
  induction l with
  | nil => simp
  | cons a l ih => simp [ih, mul_add]

theorem sum_map_div {α : Type} (l : List α) (t : α → ℚ) (c : ℚ) :
    (l.map (fun x => t x / c)).sum = (l.map t).sum / c := by
  induction l with
  | nil => simp
  | cons a l ih => simp [ih, add_div]

/-- Summing an if-update over a de-duplicated key list replaces
exactly one term. -/
theorem sum_map_ite (ids : List Str) (hnd : ids.Nodup) {k : Str}
    (hk : k ∈ ids) (v : ℚ) (f : Str → ℚ) :
    (ids.map (fun x => if x = k then v else f x)).sum =
      v - f k + (ids.map f).sum := by
  induction ids with
  | nil => simp at hk
  | cons x rest ih =>
    rw [List.nodup_cons] at hnd
    by_cases hx : x = k
    · subst hx
      rw [List.map_cons, List.sum_cons, if_pos rfl]
      rw [List.map_congr_left (fun y hy => if_neg (fun hc : y = x => by
        rw [hc] at hy
        exact hnd.1 hy))]
      rw [List.map_cons, List.sum_cons]
      ring
    · rcases List.mem_cons.mp hk with heq | hmem
      · exact absurd heq.symm hx
      · rw [List.map_cons, List.sum_cons, if_neg hx, ih hnd.2 hmem,
          List.map_cons, List.sum_cons]
        ring

/-- Looking every (de-duplicated) id up in a seed map whose keys all
lie among the ids recovers the total seed mass. -/
theorem sum_seedsGet (ids : List Str) (hnd : ids.Nodup) :
    ∀ (seeds : List (Str × ℚ)), (seeds.map (fun p => p.1)).Nodup →
      (∀ p ∈ seeds, p.1 ∈ ids) →
      (ids.map (fun x => seedsGet seeds x)).sum =
        (seeds.map (fun p => p.2)).sum := by
  intro seeds
  induction seeds with
  | nil =>
    intro _ _
    rw [List.map_congr_left (fun x _ => seedsGet_nil x)]
    simp
  | cons p rest ih =>
    intro hkeys hsub
    obtain ⟨k, v⟩ := p
    rw [List.map_cons, List.nodup_cons] at hkeys
    have hstep : ∀ x ∈ ids, seedsGet ((k, v) :: rest) x =
        if x = k then v else seedsGet rest x := by
      intro x _
      rw [seedsGet_cons]
      by_cases h : k = x
      · rw [if_pos h, if_pos h.symm]
      · rw [if_neg h, if_neg (fun hc => h hc.symm)]
    rw [List.map_congr_left hstep,
      sum_map_ite ids hnd (hsub (k, v) (List.mem_cons_self _ _)) v _,
      seedsGet_eq_zero_of_not_mem hkeys.1,
      ih hkeys.2 (fun q hq => hsub q (List.mem_cons_of_mem _ hq)),
      List.map_cons, List.sum_cons]
    ring

/-- Adding `q` at a listed node id raises the node sum by exactly
`q`. -/
theorem nodeSum_addAt (graph : GraphRT)
    (hnd : (graph.nodes.map (fun n => n.id)).Nodup) (f : Str → ℚ)
    {y : Str} (hy : y ∈ graph.nodes.map (fun n => n.id)) (q : ℚ) :
    nodeSum graph (addAt f y q) = nodeSum graph f + q := by
  unfold nodeSum
  have hstep : ∀ n ∈ graph.nodes, addAt f y q n.id =
      if n.id = y then f y + q else f n.id := by
    intro n _
    rw [addAt, Function.update_apply]
  rw [List.map_congr_left hstep]
  have hcomp : graph.nodes.map (fun n => if n.id = y then f y + q else f n.id) =
      (graph.nodes.map (fun n => n.id)).map
        (fun x => if x = y then f y + q else f x) := by
    rw [List.map_map]
    rfl
  have hcomp2 : graph.nodes.map (fun n => f n.id) =
      (graph.nodes.map (fun n => n.id)).map f := by
    rw [List.map_map]
    rfl
  rw [hcomp, sum_map_ite _ hnd hy _ f, hcomp2]
  ring

/-- Distributing amounts along edges whose targets are all node ids
raises the node sum by the total distributed amount. -/
theorem edgeFold_sum (graph : GraphRT)
    (hnd : (graph.nodes.map (fun n => n.id)).Nodup)
    (es : List (Str × ℚ)) (amount : Str × ℚ → ℚ)
    (hsub : ∀ e ∈ es, e.1 ∈ graph.nodes.map (fun n => n.id)) :
    ∀ f, nodeSum graph (es.foldl (fun nx e => addAt nx e.1 (amount e)) f) =
      nodeSum graph f + (es.map amount).sum := by
  induction es with
  | nil => simp
  | cons e rest ih =>
    intro f
    rw [List.foldl_cons,
      ih (fun e' he' => hsub e' (List.mem_cons_of_mem _ he')),
      nodeSum_addAt graph hnd f (hsub e (List.mem_cons_self _ _)),
      List.map_cons, List.sum_cons]
    ring

/-- One node's pass adds exactly `alpha * scores(node)` to the node
sum: a dangling node keeps it, a non-dangling node distributes it in
full because the per-edge shares sum to one. -/
theorem pprNodePass_sum (graph : GraphRT)
    (hnd : (graph.nodes.map (fun n => n.id)).Nodup)
    (alpha : ℚ) (scores : Str → ℚ)
    (hw : ∀ id, ∀ e ∈ graph.adj id, (1 : ℚ) / 100 ≤ e.2)
    (htargets : ∀ id, ∀ e ∈ graph.adj id,
      e.1 ∈ graph.nodes.map (fun n => n.id))
    (nx : Str → ℚ) (n : GNode)
    (hn : n.id ∈ graph.nodes.map (fun m => m.id)) :
    nodeSum graph (pprNodePass graph alpha scores nx n) =
      nodeSum graph nx + alpha * scores n.id := by
  unfold pprNodePass
  by_cases hout : graph.adj n.id = []
  · rw [if_pos hout, nodeSum_addAt graph hnd nx hn]
  · rw [if_neg hout, edgeFold_sum graph hnd _ _ (htargets n.id) nx]
    have hwpos : 0 < ((graph.adj n.id).map (fun e => e.2)).sum :=
      edgeWeightSum_pos (hw n.id) hout
    have hws : weightSumOf (graph.adj n.id) =
        ((graph.adj n.id).map (fun e => e.2)).sum := by
      unfold weightSumOf
      rw [if_neg (by linarith)]
    have hshare : ((graph.adj n.id).map
        (fun e => alpha * scores n.id * (e.2 / weightSumOf (graph.adj n.id)))).sum =
        alpha * scores n.id := by
      rw [List.map_congr_left (fun e _ => by
        show alpha * scores n.id * (e.2 / weightSumOf (graph.adj n.id)) =
          (alpha * scores n.id / weightSumOf (graph.adj n.id)) * e.2
        ring)]
      rw [sum_map_const_mul, hws]
      field_simp
    rw [hshare]

/-- The distribution fold over a node sublist adds
`alpha * Σ scores`. -/
theorem pprDistribFold_sum (graph : GraphRT)
    (hnd : (graph.nodes.map (fun n => n.id)).Nodup)
    (alpha : ℚ) (scores : Str → ℚ)
    (hw : ∀ id, ∀ e ∈ graph.adj id, (1 : ℚ) / 100 ≤ e.2)
    (htargets : ∀ id, ∀ e ∈ graph.adj id,
      e.1 ∈ graph.nodes.map (fun n => n.id))
    (ns : List GNode) (hns : ∀ n ∈ ns, n.id ∈ graph.nodes.map (fun m => m.id)) :
    ∀ nx, nodeSum graph (ns.foldl (pprNodePass graph alpha scores) nx) =
      nodeSum graph nx + alpha * (ns.map (fun n => scores n.id)).sum := by
  induction ns with
  | nil => simp
  | cons n rest ih =>
    intro nx
    rw [List.foldl_cons,
      ih (fun m hm => hns m (List.mem_cons_of_mem _ hm)),
      pprNodePass_sum graph hnd alpha scores hw htargets nx n
        (hns n (List.mem_cons_self _ _)),
      List.map_cons, List.sum_cons]
    ring

/-- The keyed update fold evaluates to its assigned values on the
node list. -/
theorem foldl_update_sum (graph : GraphRT)
    (hnd : (graph.nodes.map (fun n => n.id)).Nodup) (v : GNode → ℚ)
    (f0 : Str → ℚ) :
    nodeSum graph
        (graph.nodes.foldl (fun sc m => Function.update sc m.id (v m)) f0) =
      (graph.nodes.map v).sum := by
  unfold nodeSum
  rw [List.map_congr_left (fun n hn => foldl_update_apply_mem graph.nodes v hnd f0 hn)]

/-- The normalized seed masses over the node list sum to one when the
total raw seed mass is positive. -/
theorem pprSeedMass (graph : GraphRT) (seeds : List (Str × ℚ))
    (hnd : (graph.nodes.map (fun n => n.id)).Nodup)
    (hkeys : (seeds.map (fun p => p.1)).Nodup)
    (hsub : ∀ p ∈ seeds, p.1 ∈ graph.nodes.map (fun n => n.id))
    (hpos : 0 < (seeds.map (fun p => p.2)).sum) :
    (graph.nodes.map (fun n => seedsGet seeds n.id / seedNormOf seeds)).sum = 1 := by
  have hmap : graph.nodes.map (fun n => seedsGet seeds n.id / seedNormOf seeds) =
      (graph.nodes.map (fun n => n.id)).map (fun x => seedsGet seeds x / seedNormOf seeds) := by
    rw [List.map_map]
    rfl
  rw [hmap, sum_map_div, sum_seedsGet _ hnd seeds hkeys hsub]
  unfold seedNormOf
  rw [if_neg (by linarith)]
  exact div_self (by linarith)

/-- The initial PPR scores sum to one. -/
theorem pprInit_sum (graph : GraphRT) (seeds : List (Str × ℚ))
    (hnd : (graph.nodes.map (fun n => n.id)).Nodup)
    (hkeys : (seeds.map (fun p => p.1)).Nodup)
    (hsub : ∀ p ∈ seeds, p.1 ∈ graph.nodes.map (fun n => n.id))
    (hpos : 0 < (seeds.map (fun p => p.2)).sum) :
    nodeSum graph (pprInit graph seeds) = 1 := by
  unfold pprInit
  rw [foldl_update_sum graph hnd]
  exact pprSeedMass graph seeds hnd hkeys hsub hpos

/-- One power iteration maps a node sum `S` to `(1 − α) + α·S`: the
restart terms contribute `1 − α` in total and every node's current
mass is redistributed in full, scaled by `α`. -/
theorem pprStep_sum (graph : GraphRT) (seeds : List (Str × ℚ)) (alpha : ℚ)
    (scores : Str → ℚ)
    (hnd : (graph.nodes.map (fun n => n.id)).Nodup)
    (hkeys : (seeds.map (fun p => p.1)).Nodup)
    (hsub : ∀ p ∈ seeds, p.1 ∈ graph.nodes.map (fun n => n.id))
    (hpos : 0 < (seeds.map (fun p => p.2)).sum)
    (hw : ∀ id, ∀ e ∈ graph.adj id, (1 : ℚ) / 100 ≤ e.2)
    (htargets : ∀ id, ∀ e ∈ graph.adj id,
      e.1 ∈ graph.nodes.map (fun n => n.id)) :
    nodeSum graph (pprStep graph seeds alpha scores) =
      (1 - alpha) + alpha * nodeSum graph scores := by
  unfold pprStep
  rw [pprDistribFold_sum graph hnd alpha scores hw htargets graph.nodes
    (fun n hn => List.mem_map.mpr ⟨n, hn, rfl⟩)]
  rw [foldl_update_sum graph hnd]
  have : (graph.nodes.map
      (fun n => (1 - alpha) * (seedsGet seeds n.id / seedNormOf seeds))).sum =
      (1 - alpha) *
        (graph.nodes.map (fun n => seedsGet seeds n.id / seedNormOf seeds)).sum := by
    rw [sum_map_const_mul]
  rw [this, pprSeedMass graph seeds hnd hkeys hsub hpos]
  unfold nodeSum
  ring

/-- The C10 invariant: the node scores sum to one after
initialization, after every power iteration, and in the returned
result. -/
def PPRMassConservationHolds (graph : GraphRT) (seeds : List (Str × ℚ))
    (alpha : ℚ) : Prop :=
  nodeSum graph (pprInit graph seeds) = 1 ∧
  (∀ k, nodeSum graph
    ((pprStep graph seeds alpha)^[k] (pprInit graph seeds)) = 1) ∧
  nodeSum graph (runPersonalizedPageRank graph seeds alpha 30) = 1

/-- **C10 (amended).**  For every loaded graph and every seed map over
existing node ids with non-negative weights *of positive total mass*,
and `0 < α < 1`, the sum of all node scores is exactly 1 after
initialization, after every power iteration, and in the returned
scores: dangling nodes keep their `α`-scaled mass through the
self-loop branch, each non-dangling node's outgoing contributions sum
to exactly `α` times its current score, and the restart terms sum to
`1 − α`.  The original claim also admits an all-zero seed map, for
which the `|| 1` norm fallback makes every score 0 (see
`ppr_zero_seed_counterexample`). -/
theorem ppr_mass_conservation (graph : GraphRT) (seeds : List (Str × ℚ))
    (alpha : ℚ)
    (hnd : (graph.nodes.map (fun n => n.id)).Nodup)
    (hkeys : (seeds.map (fun p => p.1)).Nodup)
    (hsub : ∀ p ∈ seeds, p.1 ∈ graph.nodes.map (fun n => n.id))
    (hvals : ∀ p ∈ seeds, 0 ≤ p.2)
    (hpos : 0 < (seeds.map (fun p => p.2)).sum)
    (hw : ∀ id, ∀ e ∈ graph.adj id,
      (1 : ℚ) / 100 ≤ e.2 ∧ e.2 ≤ 10)
    (htargets : ∀ id, ∀ e ∈ graph.adj id,
      e.1 ∈ graph.nodes.map (fun n => n.id))
    (halpha : 0 < alpha ∧ alpha < 1) :
    PPRMassConservationHolds graph seeds alpha := by
  have hw' : ∀ id, ∀ e ∈ graph.adj id, (1 : ℚ) / 100 ≤ e.2 :=
    fun id e he => (hw id e he).1
  have hinit := pprInit_sum graph seeds hnd hkeys hsub hpos
  have hiter : ∀ k, nodeSum graph
      ((pprStep graph seeds alpha)^[k] (pprInit graph seeds)) = 1 := by
    intro k
    induction k with
    | zero => simpa using hinit
    | succ k ih =>
      rw [Function.iterate_succ_apply',
        pprStep_sum graph seeds alpha _ hnd hkeys hsub hpos hw' htargets, ih]
      ring
  refine ⟨hinit, hiter, ?_⟩
  have hne : seeds ≠ [] := by
    intro h
    rw [h] at hpos
    simp at hpos
  have hnodes : graph.nodes ≠ [] := by
    cases hseeds : seeds with
    | nil => exact absurd hseeds hne
    | cons p rest =>
      have := hsub p (by rw [hseeds]; exact List.mem_cons_self _ _)
      rw [List.mem_map] at this
      obtain ⟨n, hn, _⟩ := this
      exact List.ne_nil_of_mem hn
  unfold runPersonalizedPageRank
  rw [if_neg (by push_neg; exact ⟨hnodes, hne⟩)]
  obtain ⟨k, _, hkeq, _, _⟩ :=
    pprLoop_spec graph seeds alpha 30 (pprInit graph seeds)
  rw [hkeq]
  exact hiter k

/-- Counterexample to C10 as stated: the all-zero seed map on a
one-node graph is non-empty with non-negative weights over existing
node ids, yet the node sums after initialization and in the returned
result are 0, not 1 (the `|| 1` fallback norm divides 0 by 1). -/
theorem ppr_zero_seed_counterexample :
    (∀ p ∈ ([("a".toList, (0 : ℚ))] : List (Str × ℚ)), 0 ≤ p.2) ∧
      ([("a".toList, (0 : ℚ))] : List (Str × ℚ)) ≠ [] ∧
      nodeSum pprWitnessGraph
        (pprInit pprWitnessGraph [("a".toList, 0)]) ≠ 1 ∧
      nodeSum pprWitnessGraph
        (runPersonalizedPageRank pprWitnessGraph [("a".toList, 0)]
          (1 / 2) 30) ≠ 1 := by
  refine ⟨by decide, by decide, by decide, by decide⟩

/-- Witness for C10 (amended) on the one-node graph with unit seed
mass and `alpha = 1/2`. -/
theorem ppr_mass_conservation_witness :
    ((pprWitnessGraph.nodes.map (fun n => n.id)).Nodup ∧
      (([("a".toList, (1 : ℚ))] : List (Str × ℚ)).map (fun p => p.1)).Nodup ∧
      (∀ p ∈ ([("a".toList, (1 : ℚ))] : List (Str × ℚ)),
        p.1 ∈ pprWitnessGraph.nodes.map (fun n => n.id)) ∧
      (∀ p ∈ ([("a".toList, (1 : ℚ))] : List (Str × ℚ)), 0 ≤ p.2) ∧
      0 < (([("a".toList, (1 : ℚ))] : List (Str × ℚ)).map (fun p => p.2)).sum ∧
      (0 : ℚ) < 1 / 2 ∧ (1 : ℚ) / 2 < 1) ∧
      PPRMassConservationHolds pprWitnessGraph [("a".toList, 1)] (1 / 2) :=
  ⟨⟨by decide, by decide, by decide, by decide, by norm_num, by norm_num,
    by norm_num⟩,
    ppr_mass_conservation _ _ _ (by decide) (by decide) (by decide)
      (by decide) (by norm_num)
      (fun _ e he => absurd he (by simp [pprWitnessGraph]))
      (fun _ e he => absurd he (by simp [pprWitnessGraph]))
      (by norm_num)⟩

/-! ## C4 — graph confidence -/

/-- Exact 6-decimal rounding keeps values of `[0, 1]` inside
`[0, 1]`. -/
theorem roundTo6_bounds {y : ℚ} (h0 : 0 ≤ y) (h1 : y ≤ 1) :
    0 ≤ roundTo6 y ∧ roundTo6 y ≤ 1 := by
  unfold roundTo6
  have hzlo : (0 : ℤ) ≤ round (y * 1000000) := by
    rw [round_eq]
    rw [Int.le_floor]
    push_cast
    linarith
  have hzhi : round (y * 1000000) ≤ 1000000 := by
    rw [round_eq]
    have hfl : (↑⌊y * 1000000 + 1 / 2⌋ : ℚ) ≤ y * 1000000 + 1 / 2 :=
      Int.floor_le _
    have : (↑⌊y * 1000000 + 1 / 2⌋ : ℚ) < 1000000 + 1 := by linarith
    exact_mod_cast Int.lt_add_one_iff.mp (by exact_mod_cast this)
  constructor
  · positivity
  · rw [div_le_one (by norm_num)]
    exact_mod_cast hzhi

/-- The C4 confidence contract: the value returned by the graph
engine always lies in `[0, 1]`, and whenever at least one seed node
matched it equals the 6-decimal rounding of
`clamp(0.45·coverage + 0.35·concentration + 0.2·complexity, 0, 1)`,
with the coverage counting matched tokens of the merged query+context
text against the query's own token count. -/
def ConfidenceSpecHolds (cfg : RagConfig) (graph : GraphRT) (queryText : Str)
    (graphContext : Option Str) : Prop :=
  0 ≤ computeGraphConfidence cfg graph queryText graphContext ∧
  computeGraphConfidence cfg graph queryText graphContext ≤ 1 ∧
  ((buildSeedScores graph queryText graphContext).seeds ≠ [] →
    computeGraphConfidence cfg graph queryText graphContext =
      roundTo6 (clamp
        (seedTokenCoverage graph queryText graphContext * 0.45 +
          concentrationOf cfg graph queryText graphContext * 0.35 +
          estimateQueryComplexity queryText * 0.2) 0 1))

/-- **C4 (amended).**  The confidence returned by the graph engine is
the 6-decimal rounding of the clamped `0.45/0.35/0.2` blend of seed
coverage, PPR-mass concentration and query complexity, and always
lies in `[0, 1]` (also when a context is supplied, and when no seed
matches, where it is 0).  The original claim's exact equality with
the un-rounded clamp fails (`confidence_rounding_counterexample`),
and its reading of the coverage as a fraction of the query's own
tokens fails when the optional context contributes matched tokens:
the code divides the merged-text match count by the query token
count. -/
theorem confidence_bounds_and_formula (cfg : RagConfig) (graph : GraphRT)
    (queryText : Str) (graphContext : Option Str) :
    ConfidenceSpecHolds cfg graph queryText graphContext := by
  unfold ConfidenceSpecHolds computeGraphConfidence
  by_cases hseeds : (buildSeedScores graph queryText graphContext).seeds = []
  · rw [if_pos hseeds]
    refine ⟨le_refl 0, by norm_num, ?_⟩
    intro h
    exact absurd hseeds h
  · rw [if_neg hseeds]
    have hclamp0 : (0 : ℚ) ≤ clamp
        (seedTokenCoverage graph queryText graphContext * 0.45 +
          concentrationOf cfg graph queryText graphContext * 0.35 +
          estimateQueryComplexity queryText * 0.2) 0 1 :=
      clamp_lower _ _ _
    have hclamp1 : clamp
        (seedTokenCoverage graph queryText graphContext * 0.45 +
          concentrationOf cfg graph queryText graphContext * 0.35 +
          estimateQueryComplexity queryText * 0.2) 0 1 ≤ 1 :=
      clamp_upper (by norm_num)
    obtain ⟨hlo, hhi⟩ := roundTo6_bounds hclamp0 hclamp1
    exact ⟨hlo, hhi, fun _ => rfl⟩

/-- The graph of the C4 counterexample: one node labelled `"aa"`. -/
def cexGraph : GraphRT :=
  { nodes := [{ id := "n1".toList, label := "aa".toList }]
    adj := fun _ => []
    tokenToNodeIds := fun t => if t = "aa".toList then ["n1".toList] else [] }

/-- The query of the C4 counterexample: seven tokens, one of which
(`"aa"`) matches the graph. -/
def cexQuery : Str := "aa bb cc dd ee ff gg".toList

/-- Counterexample to C4 as stated: at this query the seed coverage
is `1/7` (both under the claim's reading and the code's — no context
is supplied), the single node holds the whole PPR mass
(concentration 1), and the complexity is `1/12`; the claim's exact
value `clamp(0.45/7 + 0.35 + 0.2/12, 0, 1) = 181/420` has more than
six decimals, so the returned confidence is the rounded
`430952/1000000` instead. -/
theorem confidence_rounding_counterexample :
    seedTokenCoverage cexGraph cexQuery none = 1 / 7 ∧
      estimateQueryComplexity cexQuery = 1 / 12 ∧
      concentrationOf sampleCfg cexGraph cexQuery none = 1 ∧
      clamp ((1 : ℚ) / 7 * 0.45 + 1 * 0.35 + 1 / 12 * 0.2) 0 1 = 181 / 420 ∧
      computeGraphConfidence sampleCfg cexGraph cexQuery none = 53869 / 125000 ∧
      computeGraphConfidence sampleCfg cexGraph cexQuery none ≠
        clamp ((1 : ℚ) / 7 * 0.45 + 1 * 0.35 + 1 / 12 * 0.2) 0 1 := by
  refine ⟨by decide, by decide, by decide, by decide, by decide, by decide⟩

/-- Witness for C4 (amended) at the counterexample instance, where a
seed does match (so the formula clause of the contract is not
vacuous). -/
theorem confidence_bounds_and_formula_witness :
    (buildSeedScores cexGraph cexQuery none).seeds ≠ [] ∧
      ConfidenceSpecHolds sampleCfg cexGraph cexQuery none :=
  ⟨by decide, confidence_bounds_and_formula sampleCfg cexGraph cexQuery none⟩

/-- Witness for C9: two candidates whose final scores tie exactly;
the returned list keeps them in fetch order. -/
theorem retrieval_deterministic_and_stable_witness :
    (([tieCandidateA, tieCandidateB].map (fun c => c.id)).Nodup ∧
      0 < 1 ∧ 1 < ([tieCandidateA, tieCandidateB] : List Candidate).length ∧
      ∀ (hi' : 0 < (retrieveMerged tieSqrt sampleCfg (trimStr "ab".toList)
          (queryEmbeddingOf (.ok [[1]])) tieGraphFeatures
          [tieCandidateA, tieCandidateB]).length)
        (hj' : 1 < (retrieveMerged tieSqrt sampleCfg (trimStr "ab".toList)
          (queryEmbeddingOf (.ok [[1]])) tieGraphFeatures
          [tieCandidateA, tieCandidateB]).length),
        ((retrieveMerged tieSqrt sampleCfg (trimStr "ab".toList)
          (queryEmbeddingOf (.ok [[1]])) tieGraphFeatures
          [tieCandidateA, tieCandidateB]).get ⟨0, hi'⟩).score =
        ((retrieveMerged tieSqrt sampleCfg (trimStr "ab".toList)
          (queryEmbeddingOf (.ok [[1]])) tieGraphFeatures
          [tieCandidateA, tieCandidateB]).get ⟨1, hj'⟩).score) ∧
      DeterminismAndTieBreakHolds tieSqrt sampleCfg "ab".toList 5
        [tieCandidateA, tieCandidateB] tieGraphFeatures (.ok [[1]]) 0 1 :=
  ⟨⟨by decide, by decide, by decide, fun _ _ => tie_scores_equal⟩,
    retrieval_deterministic_and_stable _ _ _ _ _ _ _ (by decide) 0 1
      (by decide) (by decide) (fun _ _ => tie_scores_equal)⟩

end QiRag
